import Mathlib

/-!
Verification of the max-flow solver in src/Meshkov_Maxim/Lab3/main.cpp.

The C++ program represents a directed capacitated graph with heap-allocated
Vertex/Edge objects; edges carry `capacity`, `flow`, an `isReverseEdge` flag
and a raw pointer to their paired reverse edge.  We embed this with an arena:
every edge is a record stored in a list, and an edge is identified by its
index in that list (allocation order).  Pointer links become `Option Nat`
indices.  The per-vertex `std::set<Edge*, EdgePtrComparator>` orders edges by
(source name, target name, pointer address); within one vertex the source
name is constant, and pointer-address ties (possible only for duplicate
parallel edges, which the program's input model does not use) are modelled by
allocation order, i.e. the arena index.  The transient per-vertex `inPath`
booleans are modelled as a `Finset Char` of marked vertex names (vertex names
are unique, as construction in `readGraph` dedups by name).  The C++ `int` is
modelled as unbounded `Int`; signed overflow is UB in C++ and out of scope.
-/

namespace MaxFlow

/-- Arena record for the C++ `Edge` struct: endpoints are vertex names,
`reverseEdge` is the arena index of the paired reverse edge (nullptr = none). -/
@[ext]
structure Edge where
  source : Char
  target : Char
  capacity : Int
  flow : Int
  isReverseEdge : Bool
  reverseEdge : Option Nat
  deriving DecidableEq

/-- Default edge, used only for out-of-range arena reads (never reached on
well-formed indices). -/
def dEdge : Edge :=
  { source := '?', target := '?', capacity := 0, flow := 0,
    isReverseEdge := false, reverseEdge := none }

/-- The C++ `Graph`: edge arena plus the vertex set (names, kept sorted as in
`std::set<Vertex*, VertexPtrComparator>`) and designated source/target. -/
structure Graph where
  edges : List Edge
  vertices : List Char
  source : Char
  target : Char
  deriving DecidableEq

/-- Arena read, `g.edges[i]`. -/
def Graph.edge (g : Graph) (i : Nat) : Edge := g.edges.getD i dEdge

/-- Arena write at index `i`. -/
def setEdge (g : Graph) (i : Nat) (e : Edge) : Graph :=
  { g with edges := g.edges.set i e }

/-- Insertion step of an insertion sort (used to model ordered `std::set`
iteration order). -/
def insertLe (le : α → α → Bool) (a : α) : List α → List α
  | [] => [a]
  | b :: r => if le a b then a :: b :: r else b :: insertLe le a r

/-- Insertion sort by a boolean total preorder. -/
def sortLe (le : α → α → Bool) (l : List α) : List α := l.foldr (insertLe le) []

/-- Order of the C++ `EdgePtrComparator` restricted to one vertex's edge set:
by target name, ties by pointer (modelled as arena index). -/
def edgeLe (g : Graph) (i j : Nat) : Bool :=
  decide ((g.edge i).target < (g.edge j).target) ||
    (decide ((g.edge i).target = (g.edge j).target) && decide (i ≤ j))

/-- Outgoing edge ids of vertex `v`, in the iteration order of
`vertex->edges` (ascending by target name, then arena index). -/
def edgesOf (g : Graph) (v : Char) : List Nat :=
  sortLe (edgeLe g)
    ((List.range g.edges.length).filter (fun i => decide ((g.edge i).source = v)))

/-- Name order on chars, the `VertexPtrComparator`. -/
def charLe (a b : Char) : Bool := decide (a ≤ b)

/-- The C++ `findPath` body (lines 43-66 of main.cpp).  One call frame
iterates `l`, the not-yet-tried suffix of the (reversed) outgoing edge list
of `src`; `st` is the set of vertices with `inPath == true`; `path` is the
shared path vector.  A unit of fuel is consumed at each step (both entering a
frame and advancing the loop), so recursion is structural on `fuel` and the
definition evaluates by kernel reduction; fuel exhaustion yields `none`, and
a separate lemma shows a polynomial fuel bound never exhausts. -/
def findPathFrom (g : Graph) (tgt : Char) :
    Nat → Char → List Nat → Finset Char → List Nat →
      Option (Bool × List Nat × Finset Char)
  | 0, _, _, _, _ => none
  | _ + 1, src, path, st, [] =>
      -- loop ended: lines 64-65, source->inPath = false; return false
      some (false, path, st.erase src)
  | fuel + 1, src, path, st, i :: rest =>
      let e := g.edge i
      if (e.target ∉ st) ∧ 0 < e.capacity then
        -- line 51: path.push_back(edge)
        let path1 := path ++ [i]
        if e.target = tgt then
          -- lines 52-53: immediate success, no marker updates
          some (true, path1, st)
        else
          -- lines 54-55: mark target, recurse
          match findPathFrom g tgt fuel e.target path1 (insert e.target st)
              ((edgesOf g e.target).reverse) with
          | none => none
          | some (true, p2, st2) =>
              -- lines 56-59: unmark child target, unmark own source, return
              some (true, p2, (st2.erase e.target).erase src)
          | some (false, p2, st2) =>
              -- lines 56, 61: unmark child target, pop_back, next edge
              findPathFrom g tgt fuel src p2.dropLast (st2.erase e.target) rest
      else
        findPathFrom g tgt fuel src path st rest

/-- Top-level `findPath(graph.source, graph.target, path)` with
`clearPath = true` (lines 44-47): clears the path vector, marks the source,
and iterates the source's edges from `rbegin` (reverse order). -/
def findPath (g : Graph) (fuel : Nat) (st : Finset Char) :
    Option (Bool × List Nat × Finset Char) :=
  findPathFrom g g.target fuel g.source [] (insert g.source st)
    ((edgesOf g g.source).reverse)

/-- The C++ `findMinCapacity` (lines 68-74): starts from the front edge's
capacity and folds `min` over all path edges.  The `assert(!path.empty())`
precondition is tracked by callers; on `[]` the head read defaults. -/
def findMinCapacity (g : Graph) (path : List Nat) : Int :=
  path.foldl (fun m i => min m (g.edge i).capacity) (g.edge (path.headD 0)).capacity

/-- One iteration of the loop body of `changeFlow` (lines 78-85): add `a` to
the edge's flow, subtract it from its capacity, and do the opposite on the
paired reverse edge.  A null `reverseEdge` would be UB in the C++ (never
reached in the driver, where residual construction links every edge). -/
def changeFlowStep (g : Graph) (a : Int) (i : Nat) : Graph :=
  let g1 := setEdge g i { g.edge i with flow := (g.edge i).flow + a,
                                        capacity := (g.edge i).capacity - a }
  match (g.edge i).reverseEdge with
  | none => g1
  | some j => setEdge g1 j { g1.edge j with flow := (g1.edge j).flow - a,
                                            capacity := (g1.edge j).capacity + a }

/-- The C++ `changeFlow` (lines 76-86). -/
def changeFlow (g : Graph) (path : List Nat) (a : Int) : Graph :=
  path.foldl (fun g i => changeFlowStep g a i) g

/-- The assertion conditions evaluated inside `changeFlow` during its fold:
`assert(flowChange >= 0)` once and `assert(edge->capacity >= flowChange)`
against the running graph state at each step. -/
def changeFlowCapsOk (g : Graph) (a : Int) : List Nat → Prop
  | [] => True
  | i :: rest => a ≤ (g.edge i).capacity ∧ changeFlowCapsOk (changeFlowStep g a i) a rest

/-- Both asserts of `changeFlow` hold along the whole fold. -/
def changeFlowAssertsOk (g : Graph) (path : List Nat) (a : Int) : Prop :=
  0 ≤ a ∧ changeFlowCapsOk g a path

/-- One step of processing in `addReverseEdges` (lines 90-103): an edge that
already has a reverse link is skipped; otherwise a fresh companion edge
(target→source, capacity 0, flow 0, marked reverse) is appended to the arena
and the two edges are linked to each other.  Appending to the arena models
`edge->target->edges.insert(reverseEdge)`, since adjacency is derived from
the edges' source fields. -/
def addReverseFor (g : Graph) (i : Nat) : Graph :=
  let e := g.edge i
  match e.reverseEdge with
  | some _ => g
  | none =>
      let j := g.edges.length
      let r : Edge := { source := e.target, target := e.source, capacity := 0,
                        flow := 0, isReverseEdge := true, reverseEdge := some i }
      { g with edges := g.edges.set i { e with reverseEdge := some j } ++ [r] }

/-- Iteration order of `addReverseEdges`: vertices in name order, each
vertex's edges in set order.  The C++ iterates the live sets, which can also
encounter reverse edges inserted earlier in the same pass; those are created
already linked and are skipped, so processing the initially present edges in
this order yields the same graph. -/
def processOrder (g : Graph) : List Nat :=
  g.vertices.flatMap (fun v => edgesOf g v)

/-- The C++ `addReverseEdges` (lines 88-105). -/
def addReverseEdges (g : Graph) : Graph :=
  (processOrder g).foldl addReverseFor g

/-- Driver state: current graph, current `inPath` markers, accumulated flow
(`maxFlow` in the C++). -/
structure DState where
  g : Graph
  st : Finset Char
  acc : Int
  deriving DecidableEq

/-- One test of the `while (findPath(...))` condition plus, when a path is
found, one execution of the loop body (lines 145-163): bottleneck, flow
change, accumulation.  Returns the `found` flag and the successor state;
`none` only on path-search fuel exhaustion. -/
def driverStep (pathFuel : Nat) (s : DState) : Option (Bool × DState) :=
  match findPath s.g pathFuel s.st with
  | none => none
  | some (false, _, st') => some (false, { s with st := st' })
  | some (true, p, st') =>
      let b := findMinCapacity s.g p
      some (true, { g := changeFlow s.g p b, st := st', acc := s.acc + b })

/-- The driver loop of `findMaxFlow`, with an iteration bound. -/
def findMaxFlowAux (pathFuel : Nat) : Nat → DState → Option DState
  | 0, _ => none
  | k + 1, s =>
      match driverStep pathFuel s with
      | none => none
      | some (false, s') => some s'
      | some (true, s') => findMaxFlowAux pathFuel k s'

/-- The C++ `findMaxFlow` (lines 136-166): add reverse edges once, then loop
search/bottleneck/update until no augmenting path remains.  Initial markers
are empty (vertices are constructed with `inPath = false`), initial
accumulator 0. -/
def findMaxFlow (g : Graph) (pathFuel loopFuel : Nat) : Option DState :=
  findMaxFlowAux pathFuel loopFuel { g := addReverseEdges g, st := ∅, acc := 0 }

/-- The state after at most `k` augmentations of the driver loop (stays put
once the loop has terminated).  Used to speak about every intermediate point
of the loop of `findMaxFlow`. -/
def driverIter (pathFuel : Nat) : Nat → DState → Option DState
  | 0, s => some s
  | k + 1, s =>
      match driverStep pathFuel s with
      | none => none
      | some (false, _) => some s
      | some (true, s') => driverIter pathFuel k s'

/-- Initial driver state for an input graph, as set up by `findMaxFlow`
before its loop. -/
def initState (g : Graph) : DState :=
  { g := addReverseEdges g, st := ∅, acc := 0 }

/-- The C++ `readGraph` (lines 168-204) on already-parsed data: the edge
count plus `cin` contents become the list `inp` of (source, target,
capacity) triples. Vertices are created on first appearance (dedup by name,
kept in name order as in the `std::map`/`std::set`); `vertices.at` throws
`std::out_of_range` when the overall source or target label never appears in
any edge, modelled as `Except.error`. -/
def readGraph (sourceName targetName : Char) (inp : List (Char × Char × Int)) :
    Except String Graph :=
  let edges : List Edge := inp.map (fun x =>
    { source := x.1, target := x.2.1, capacity := x.2.2, flow := 0,
      isReverseEdge := false, reverseEdge := none })
  let names : List Char :=
    sortLe charLe ((inp.flatMap (fun x => [x.1, x.2.1])).dedup)
  if sourceName ∈ (inp.flatMap (fun x => [x.1, x.2.1])) then
    if targetName ∈ (inp.flatMap (fun x => [x.1, x.2.1])) then
      Except.ok { edges := edges, vertices := names,
                  source := sourceName, target := targetName }
    else Except.error "no such vertex"
  else Except.error "no such vertex"

/-! ### Path predicates (shared by the findPath specification and the flow
optimality argument) -/

/-- Target names of a list of edge ids. -/
def edgeTargets (g : Graph) (q : List Nat) : List Char :=
  q.map fun i => (g.edge i).target

/-- The edge ids `q` form a directed walk from `x` to `y`: nonempty, each
edge's source is the previous edge's target, first source `x`, last target
`y`. -/
def chainFrom (g : Graph) (x y : Char) : List Nat → Bool
  | [] => false
  | [i] => decide ((g.edge i).source = x) && decide ((g.edge i).target = y)
  | i :: j :: rest =>
      decide ((g.edge i).source = x) && chainFrom g (g.edge i).target y (j :: rest)

/-- An augmenting path of the current residual graph: a directed walk from
the graph's source to its target along edges of positive residual capacity
that visits no vertex twice. -/
def isAugPath (g : Graph) (q : List Nat) : Prop :=
  chainFrom g g.source g.target q = true ∧
  (∀ i ∈ q, i < g.edges.length ∧ 0 < (g.edge i).capacity) ∧
  (g.source :: edgeTargets g q).Nodup

/-! ### Insertion sort and adjacency-list lemmas -/

theorem insertLe_perm (le : α → α → Bool) (a : α) (l : List α) :
    (insertLe le a l).Perm (a :: l) := by
  induction l with
  | nil => simp [insertLe]
  | cons b r ih =>
      simp only [insertLe]
      split
      · exact List.Perm.refl _
      · exact (ih.cons b).trans (List.Perm.swap a b r)

theorem sortLe_perm (le : α → α → Bool) (l : List α) : (sortLe le l).Perm l := by
  induction l with
  | nil => simp [sortLe]
  | cons a r ih =>
      simpa [sortLe] using (insertLe_perm le a (sortLe le r)).trans (ih.cons a)

theorem mem_sortLe {le : α → α → Bool} {l : List α} {a : α} :
    a ∈ sortLe le l ↔ a ∈ l := (sortLe_perm le l).mem_iff

theorem mem_edgesOf {g : Graph} {v : Char} {i : Nat} :
    i ∈ edgesOf g v ↔ i < g.edges.length ∧ (g.edge i).source = v := by
  simp [edgesOf, mem_sortLe, List.mem_filter, List.mem_range]

theorem length_edgesOf_le (g : Graph) (v : Char) :
    (edgesOf g v).length ≤ g.edges.length := by
  calc (edgesOf g v).length
      = ((List.range g.edges.length).filter
          (fun i => decide ((g.edge i).source = v))).length :=
        (sortLe_perm _ _).length_eq
    _ ≤ (List.range g.edges.length).length := List.length_filter_le _ _
    _ = g.edges.length := List.length_range _

theorem mem_processOrder {g : Graph} {i : Nat} :
    i ∈ processOrder g ↔
      (g.edge i).source ∈ g.vertices ∧ i < g.edges.length := by
  constructor
  · intro h
    rcases List.mem_flatMap.mp h with ⟨v, hv, hi⟩
    rcases mem_edgesOf.mp hi with ⟨hlen, hsrc⟩
    exact ⟨hsrc ▸ hv, hlen⟩
  · rintro ⟨hv, hlen⟩
    exact List.mem_flatMap.mpr ⟨_, hv, mem_edgesOf.mpr ⟨hlen, rfl⟩⟩

theorem chainFrom_cons {g : Graph} {x y : Char} {i : Nat} {q : List Nat}
    (hq : q ≠ []) :
    chainFrom g x y (i :: q) =
      (decide ((g.edge i).source = x) && chainFrom g (g.edge i).target y q) := by
  cases q with
  | nil => exact absurd rfl hq
  | cons j rest => rfl

theorem chainFrom_source {g : Graph} {x y : Char} {i : Nat} {q : List Nat}
    (h : chainFrom g x y (i :: q) = true) : (g.edge i).source = x := by
  cases q with
  | nil => simp [chainFrom] at h; exact h.1
  | cons j rest => simp [chainFrom] at h; exact h.1

/-! ### Search lemmas: state restoration on failure -/

theorem findPathFrom_false (g : Graph) (tgt : Char) :
    ∀ (fuel : Nat) (src : Char) (path : List Nat) (st : Finset Char)
      (l : List Nat) {p' : List Nat} {st' : Finset Char},
      findPathFrom g tgt fuel src path st l = some (false, p', st') →
      p' = path ∧ st' = st.erase src := by
  intro fuel
  induction fuel with
  | zero => intro src path st l p' st' h; simp [findPathFrom] at h
  | succ fuel ih =>
      intro src path st l p' st' h
      cases l with
      | nil =>
          simp only [findPathFrom, Option.some.injEq, Prod.mk.injEq, true_and] at h
          exact ⟨h.1.symm, h.2.symm⟩
      | cons i rest =>
          simp only [findPathFrom] at h
          split at h
          · next hcond =>
              split at h
              · simp at h
              · split at h
                · simp at h
                · simp at h
                · next p2 st2 heq =>
                    obtain ⟨hp2, hst2⟩ := ih _ _ _ _ heq
                    obtain ⟨hp', hst'⟩ := ih _ _ _ _ h
                    have ht : (g.edge i).target ∉ st := hcond.1
                    subst hp2 hst2
                    constructor
                    · simp [hp']
                    · rw [hst', Finset.erase_insert ht,
                        Finset.erase_eq_of_not_mem ht]
          · exact ih _ _ _ _ h

/-! ### Search lemmas: soundness of a found path -/

theorem findPathFrom_true (g : Graph) (tgt : Char) :
    ∀ (fuel : Nat) (src : Char) (path : List Nat) (st : Finset Char)
      (l : List Nat) {p' : List Nat} {st' : Finset Char},
      (∀ i ∈ l, i < g.edges.length ∧ (g.edge i).source = src) →
      src ∈ st →
      findPathFrom g tgt fuel src path st l = some (true, p', st') →
      ∃ q, p' = path ++ q ∧ q ≠ [] ∧ chainFrom g src tgt q = true ∧
        (∀ i ∈ q, i < g.edges.length ∧ 0 < (g.edge i).capacity) ∧
        (edgeTargets g q).Nodup ∧
        (∀ c ∈ edgeTargets g q, c ∉ st) ∧
        (st' = st ∨ st' = st.erase src) := by
  intro fuel
  induction fuel with
  | zero => intro src path st l p' st' _ _ h; simp [findPathFrom] at h
  | succ fuel ih =>
      intro src path st l p' st' hl hsrc h
      cases l with
      | nil => simp [findPathFrom] at h
      | cons i rest =>
          simp only [findPathFrom] at h
          split at h
          · next hcond =>
              split at h
              · next hhit =>
                  simp only [Option.some.injEq, Prod.mk.injEq, true_and] at h
                  refine ⟨[i], h.1.symm, by simp, ?_, ?_, ?_, ?_, Or.inl h.2.symm⟩
                  · simp [chainFrom, (hl i (by simp)).2, hhit]
                  · intro j hj
                    rcases List.mem_singleton.mp hj with rfl
                    exact ⟨(hl j (by simp)).1, hcond.2⟩
                  · simp [edgeTargets]
                  · intro c hc
                    simp only [edgeTargets, List.map_cons, List.map_nil,
                      List.mem_singleton] at hc
                    exact hc ▸ hcond.1
              · next hhit =>
                  split at h
                  · simp at h
                  · next p2 st2 heq =>
                      have hl' : ∀ j ∈ (edgesOf g (g.edge i).target).reverse,
                          j < g.edges.length ∧
                            (g.edge j).source = (g.edge i).target := by
                        intro j hj
                        exact mem_edgesOf.mp (List.mem_reverse.mp hj)
                      obtain ⟨q', hp2, hq'ne, hchain', hcaps', hnd', havoid',
                          hstcase⟩ :=
                        ih _ _ _ _ hl' (Finset.mem_insert_self _ _) heq
                      simp only [Option.some.injEq, Prod.mk.injEq,
                        true_and] at h
                      have ht : (g.edge i).target ∉ st := hcond.1
                      refine ⟨i :: q', ?_, by simp, ?_, ?_, ?_, ?_, ?_⟩
                      · rw [← h.1, hp2]; simp
                      · rw [chainFrom_cons hq'ne]
                        simp [(hl i (by simp)).2, hchain']
                      · intro j hj
                        rcases List.mem_cons.mp hj with rfl | hj
                        · exact ⟨(hl j (by simp)).1, hcond.2⟩
                        · exact hcaps' j hj
                      · refine List.nodup_cons.mpr ⟨?_, hnd'⟩
                        intro hmem
                        exact havoid' _ hmem (Finset.mem_insert_self _ _)
                      · intro c hc
                        rcases List.mem_cons.mp hc with rfl | hc
                        · exact ht
                        · intro hcst
                          exact havoid' _ hc (Finset.mem_insert_of_mem hcst)
                      · right
                        rw [← h.2]
                        rcases hstcase with h2 | h2 <;>
                          simp [h2, Finset.erase_insert ht,
                            Finset.erase_eq_of_not_mem ht]
                  · next p2 st2 heq =>
                      obtain ⟨hp2, hst2⟩ := findPathFrom_false g tgt _ _ _ _ _ heq
                      have ht : (g.edge i).target ∉ st := hcond.1
                      subst hp2 hst2
                      rw [Finset.erase_insert ht, Finset.erase_eq_of_not_mem ht,
                        List.dropLast_concat] at h
                      exact ih _ _ _ _ (fun j hj => hl j (by simp [hj])) hsrc h
          · exact ih _ _ _ _ (fun j hj => hl j (by simp [hj])) hsrc h

/-! ### Search lemmas: completeness — a failed search excludes every
candidate simple augmenting path whose first edge lies in the remaining
worklist -/

theorem findPathFrom_complete (g : Graph) (tgt : Char) :
    ∀ (fuel : Nat) (src : Char) (path : List Nat) (st : Finset Char)
      (l : List Nat) {p' : List Nat} {st' : Finset Char},
      findPathFrom g tgt fuel src path st l = some (false, p', st') →
      ∀ (e0 : Nat) (qr : List Nat), e0 ∈ l →
        chainFrom g src tgt (e0 :: qr) = true →
        (∀ i ∈ e0 :: qr, i < g.edges.length ∧ 0 < (g.edge i).capacity) →
        (edgeTargets g (e0 :: qr)).Nodup →
        (∀ c ∈ edgeTargets g (e0 :: qr), c ∉ st) →
        False := by
  intro fuel
  induction fuel with
  | zero => intro src path st l p' st' h; simp [findPathFrom] at h
  | succ fuel ih =>
      intro src path st l p' st' h e0 qr hmem hchain hcaps hnd havoid
      cases l with
      | nil => simp at hmem
      | cons i rest =>
          simp only [findPathFrom] at h
          split at h
          · next hcond =>
              split at h
              · simp at h
              · next hhit =>
                  split at h
                  · simp at h
                  · simp at h
                  · next p2 st2 heq =>
                      rcases List.mem_cons.mp hmem with rfl | hmem'
                      · cases qr with
                        | nil =>
                            simp [chainFrom] at hchain
                            exact hhit hchain.2
                        | cons j qr' =>
                            rw [chainFrom_cons (by simp)] at hchain
                            simp only [Bool.and_eq_true, decide_eq_true_eq]
                              at hchain
                            have hj : j ∈ (edgesOf g (g.edge e0).target).reverse := by
                              rw [List.mem_reverse, mem_edgesOf]
                              exact ⟨(hcaps j (by simp)).1,
                                chainFrom_source hchain.2⟩
                            refine ih _ _ _ _ heq j qr' hj hchain.2
                              (fun k hk => hcaps k (by simp [hk])) ?_ ?_
                            · have := hnd
                              simp only [edgeTargets, List.map_cons,
                                List.nodup_cons] at this ⊢
                              exact this.2
                            · intro c hc
                              have hcne : c ≠ (g.edge e0).target := by
                                intro hEq
                                have := hnd
                                simp only [edgeTargets, List.map_cons,
                                  List.nodup_cons] at this
                                exact this.1 (hEq ▸ hc)
                              have hcst : c ∉ st := by
                                refine havoid c ?_
                                simp only [edgeTargets, List.map_cons]
                                exact List.mem_cons_of_mem _ hc
                              simp [Finset.mem_insert, hcne, hcst]
                      · obtain ⟨hp2, hst2⟩ :=
                          findPathFrom_false g tgt _ _ _ _ _ heq
                        have ht : (g.edge i).target ∉ st := hcond.1
                        subst hst2
                        rw [Finset.erase_insert ht,
                          Finset.erase_eq_of_not_mem ht] at h
                        exact ih _ _ _ _ h e0 qr hmem' hchain hcaps hnd havoid
          · next hcond =>
              rcases List.mem_cons.mp hmem with rfl | hmem'
              · refine hcond ⟨?_, (hcaps e0 (by simp)).2⟩
                refine havoid (g.edge e0).target ?_
                simp [edgeTargets]
              · exact ih _ _ _ _ h e0 qr hmem' hchain hcaps hnd havoid

/-! ### Search lemmas: a polynomial fuel bound never exhausts -/

theorem length_filter_mono {p q : α → Bool} (hpq : ∀ x, p x = true → q x = true) :
    ∀ l : List α, (l.filter p).length ≤ (l.filter q).length := by
  intro l
  induction l with
  | nil => simp
  | cons a r ih =>
      by_cases hp : p a = true
      · rw [List.filter_cons_of_pos hp, List.filter_cons_of_pos (hpq a hp)]
        simpa using ih
      · rw [List.filter_cons_of_neg (by simpa using hp)]
        by_cases hq : q a = true
        · rw [List.filter_cons_of_pos hq]
          exact ih.trans (Nat.le_succ _)
        · rw [List.filter_cons_of_neg (by simpa using hq)]
          exact ih

theorem length_filter_insert_lt {verts : List Char} {st : Finset Char}
    {t : Char} (htv : t ∈ verts) (hts : t ∉ st) :
    (verts.filter (fun v => decide (v ∉ insert t st))).length <
      (verts.filter (fun v => decide (v ∉ st))).length := by
  induction verts with
  | nil => simp at htv
  | cons a r ih =>
      by_cases hat : a = t
      · subst hat
        rw [List.filter_cons_of_neg (by simp),
          List.filter_cons_of_pos (by simpa using hts)]
        have := length_filter_mono
          (p := fun v => decide (v ∉ insert a st))
          (q := fun v => decide (v ∉ st))
          (fun x hx => by
            simp only [decide_eq_true_eq] at hx ⊢
            exact fun hmem => hx (Finset.mem_insert_of_mem hmem)) r
        simp only [List.length_cons]
        omega
      · have htv' : t ∈ r := by
          rcases List.mem_cons.mp htv with h | h
          · exact absurd h.symm hat
          · exact h
        by_cases ha : a ∈ st
        · rw [List.filter_cons_of_neg
              (by simp [Finset.mem_insert_of_mem ha]),
            List.filter_cons_of_neg (by simp [ha])]
          exact ih htv'
        · rw [List.filter_cons_of_pos (by
              simp only [decide_eq_true_eq, Finset.mem_insert]
              rintro (rfl | h)
              · exact hat rfl
              · exact ha h),
            List.filter_cons_of_pos (by simpa using ha)]
          have := ih htv'
          simp only [List.length_cons]
          omega

theorem findPathFrom_isSome (g : Graph) (tgt : Char) :
    ∀ (fuel : Nat) (src : Char) (path : List Nat) (st : Finset Char)
      (l : List Nat),
      (∀ i ∈ l, i < g.edges.length) →
      (∀ i, i < g.edges.length → (g.edge i).target ∈ g.vertices) →
      l.length ≤ g.edges.length →
      (g.vertices.filter (fun v => decide (v ∉ st))).length *
          (g.edges.length + 2) + l.length + 1 ≤ fuel →
      findPathFrom g tgt fuel src path st l ≠ none := by
  intro fuel
  induction fuel with
  | zero =>
      intro src path st l _ _ _ hfuel
      exact absurd hfuel (Nat.not_succ_le_zero _)
  | succ fuel ih =>
      intro src path st l hl hv hllen hfuel
      cases l with
      | nil => simp [findPathFrom]
      | cons i rest =>
          simp only [findPathFrom]
          split
          · next hcond =>
              split
              · simp
              · have ht : (g.edge i).target ∉ st := hcond.1
                have htv : (g.edge i).target ∈ g.vertices :=
                  hv i (hl i (by simp))
                have hchild : findPathFrom g tgt fuel (g.edge i).target
                    (path ++ [i]) (insert (g.edge i).target st)
                    ((edgesOf g (g.edge i).target).reverse) ≠ none := by
                  refine ih _ _ _ _
                    (fun j hj =>
                      (mem_edgesOf.mp (List.mem_reverse.mp hj)).1) hv
                    (by simpa using length_edgesOf_le g (g.edge i).target) ?_
                  have hlt := length_filter_insert_lt htv ht
                  have hlen' : (edgesOf g (g.edge i).target).reverse.length ≤
                      g.edges.length := by
                    simpa using length_edgesOf_le g (g.edge i).target
                  set uc' := ((g.vertices.filter
                    (fun v => decide (v ∉ insert (g.edge i).target st))).length)
                  set uc := ((g.vertices.filter
                    (fun v => decide (v ∉ st))).length)
                  have hmul : uc' * (g.edges.length + 2) +
                      (g.edges.length + 2) ≤ uc * (g.edges.length + 2) := by
                    calc uc' * (g.edges.length + 2) + (g.edges.length + 2)
                        = (uc' + 1) * (g.edges.length + 2) := by ring
                      _ ≤ uc * (g.edges.length + 2) :=
                          Nat.mul_le_mul_right _ hlt
                  generalize hA : uc' * (g.edges.length + 2) = A at *
                  generalize hB : uc * (g.edges.length + 2) = B at *
                  simp only [List.length_cons] at hfuel
                  omega
                match hres : findPathFrom g tgt fuel (g.edge i).target
                    (path ++ [i]) (insert (g.edge i).target st)
                    ((edgesOf g (g.edge i).target).reverse) with
                | none => exact absurd hres hchild
                | some (true, p2, st2) => simp
                | some (false, p2, st2) =>
                    obtain ⟨hp2, hst2⟩ :=
                      findPathFrom_false g tgt _ _ _ _ _ hres
                    subst hst2
                    rw [Finset.erase_insert ht]
                    show findPathFrom g tgt fuel src p2.dropLast
                        (st.erase (g.edge i).target) rest ≠ none
                    rw [Finset.erase_eq_of_not_mem ht]
                    refine ih _ _ _ _ (fun j hj => hl j (by simp [hj])) hv
                      (by simp at hllen ⊢; omega) ?_
                    generalize hB : ((g.vertices.filter
                      (fun v => decide (v ∉ st))).length *
                        (g.edges.length + 2)) = B at *
                    simp only [List.length_cons] at hfuel
                    omega
          · refine ih _ _ _ _ (fun j hj => hl j (by simp [hj])) hv
              (by simp at hllen ⊢; omega) ?_
            generalize hB : ((g.vertices.filter
              (fun v => decide (v ∉ st))).length * (g.edges.length + 2)) = B at *
            simp only [List.length_cons] at hfuel
            omega

/-! ### Arena access lemmas -/

theorem length_setEdge (g : Graph) (i : Nat) (e : Edge) :
    (setEdge g i e).edges.length = g.edges.length := by simp [setEdge]

theorem edge_setEdge_self {g : Graph} {i : Nat} (e : Edge)
    (h : i < g.edges.length) : (setEdge g i e).edge i = e := by
  simp [setEdge, Graph.edge, List.getD_eq_getElem?_getD,
    List.getElem?_set_self h]

theorem edge_setEdge_ne {g : Graph} {i j : Nat} (e : Edge) (h : i ≠ j) :
    (setEdge g i e).edge j = g.edge j := by
  simp [setEdge, Graph.edge, List.getD_eq_getElem?_getD,
    List.getElem?_set_ne h]

theorem edge_setEdge (g : Graph) (i : Nat) (e : Edge) (k : Nat) :
    (setEdge g i e).edge k =
      if k = i ∧ i < g.edges.length then e else g.edge k := by
  by_cases hk : k = i
  · subst hk
    by_cases hlen : k < g.edges.length
    · simp [edge_setEdge_self e hlen, hlen]
    · simp only [hlen, and_false, if_neg, setEdge, Graph.edge]
      rw [List.set_eq_of_length_le (by omega)]
      simp
  · simp [edge_setEdge_ne e (fun h => hk h.symm), hk]

theorem setEdge_meta (g : Graph) (i : Nat) (e : Edge) :
    (setEdge g i e).source = g.source ∧ (setEdge g i e).target = g.target ∧
      (setEdge g i e).vertices = g.vertices := by
  simp [setEdge]

/-! ### Effect of changeFlow on individual arena slots -/

/-- Index of the paired reverse edge (reads the pointer field). -/
def pairIdx (g : Graph) (m : Nat) : Nat := ((g.edge m).reverseEdge).getD 0

/-- The edge `m` and its stored reverse are properly and mutually linked
distinct arena slots. -/
def Paired (g : Graph) (m : Nat) : Prop :=
  m < g.edges.length ∧ (g.edge m).reverseEdge = some (pairIdx g m) ∧
    pairIdx g m < g.edges.length ∧ pairIdx g m ≠ m ∧
    (g.edge (pairIdx g m)).reverseEdge = some m

theorem setEdge_preserves_fields {g : Graph} {i : Nat} {e : Edge}
    (h1 : e.source = (g.edge i).source) (h2 : e.target = (g.edge i).target)
    (h3 : e.isReverseEdge = (g.edge i).isReverseEdge)
    (h4 : e.reverseEdge = (g.edge i).reverseEdge) (k : Nat) :
    ((setEdge g i e).edge k).source = (g.edge k).source ∧
    ((setEdge g i e).edge k).target = (g.edge k).target ∧
    ((setEdge g i e).edge k).isReverseEdge = (g.edge k).isReverseEdge ∧
    ((setEdge g i e).edge k).reverseEdge = (g.edge k).reverseEdge := by
  rw [edge_setEdge]
  split
  · next h => rw [h.1]; exact ⟨h1, h2, h3, h4⟩
  · exact ⟨rfl, rfl, rfl, rfl⟩

theorem setEdge_setEdge_fields {g : Graph} {i1 i2 : Nat} {e1 e2 : Edge}
    (a1 : e1.source = (g.edge i1).source) (a2 : e1.target = (g.edge i1).target)
    (a3 : e1.isReverseEdge = (g.edge i1).isReverseEdge)
    (a4 : e1.reverseEdge = (g.edge i1).reverseEdge)
    (b1 : e2.source = ((setEdge g i1 e1).edge i2).source)
    (b2 : e2.target = ((setEdge g i1 e1).edge i2).target)
    (b3 : e2.isReverseEdge = ((setEdge g i1 e1).edge i2).isReverseEdge)
    (b4 : e2.reverseEdge = ((setEdge g i1 e1).edge i2).reverseEdge)
    (k : Nat) :
    ((setEdge (setEdge g i1 e1) i2 e2).edge k).source = (g.edge k).source ∧
    ((setEdge (setEdge g i1 e1) i2 e2).edge k).target = (g.edge k).target ∧
    ((setEdge (setEdge g i1 e1) i2 e2).edge k).isReverseEdge =
      (g.edge k).isReverseEdge ∧
    ((setEdge (setEdge g i1 e1) i2 e2).edge k).reverseEdge =
      (g.edge k).reverseEdge := by
  obtain ⟨c1, c2, c3, c4⟩ := setEdge_preserves_fields b1 b2 b3 b4 k
  obtain ⟨d1, d2, d3, d4⟩ := setEdge_preserves_fields a1 a2 a3 a4 k
  exact ⟨c1.trans d1, c2.trans d2, c3.trans d3, c4.trans d4⟩

theorem changeFlowStep_struct (g : Graph) (a : Int) (m : Nat) :
    (changeFlowStep g a m).edges.length = g.edges.length ∧
    (changeFlowStep g a m).source = g.source ∧
    (changeFlowStep g a m).target = g.target ∧
    (changeFlowStep g a m).vertices = g.vertices ∧
    ∀ k, ((changeFlowStep g a m).edge k).source = (g.edge k).source ∧
      ((changeFlowStep g a m).edge k).target = (g.edge k).target ∧
      ((changeFlowStep g a m).edge k).isReverseEdge = (g.edge k).isReverseEdge ∧
      ((changeFlowStep g a m).edge k).reverseEdge = (g.edge k).reverseEdge := by
  cases hrev : (g.edge m).reverseEdge with
  | none =>
      simp only [changeFlowStep, hrev]
      exact ⟨length_setEdge _ _ _, rfl, rfl, rfl,
        fun k => setEdge_preserves_fields (by simp [hrev]) (by simp [hrev])
          (by simp [hrev]) (by simp [hrev]) k⟩
  | some j =>
      simp only [changeFlowStep, hrev]
      exact ⟨(length_setEdge _ _ _).trans (length_setEdge _ _ _),
        rfl, rfl, rfl,
        fun k => setEdge_setEdge_fields (by simp [hrev]) (by simp [hrev])
          (by simp [hrev]) (by simp [hrev]) (by simp [hrev]) (by simp [hrev])
          (by simp [hrev]) (by simp [hrev]) k⟩

theorem pairIdx_changeFlowStep (g : Graph) (a : Int) (m k : Nat) :
    pairIdx (changeFlowStep g a m) k = pairIdx g k := by
  simp [pairIdx, ((changeFlowStep_struct g a m).2.2.2.2 k).2.2.2]

theorem paired_changeFlowStep (g : Graph) (a : Int) (m : Nat) {k : Nat}
    (h : Paired g k) : Paired (changeFlowStep g a m) k := by
  obtain ⟨h1, h2, h3, h4, h5⟩ := h
  obtain ⟨hlen, _, _, _, hfields⟩ := changeFlowStep_struct g a m
  refine ⟨by omega, ?_, ?_, ?_, ?_⟩ <;>
    rw [pairIdx_changeFlowStep]
  · rw [(hfields k).2.2.2]; exact h2
  · omega
  · exact h4
  · rw [(hfields _).2.2.2]; exact h5

theorem changeFlowStep_edge (g : Graph) (a : Int) (m : Nat)
    (hm : Paired g m) (k : Nat) :
    ((changeFlowStep g a m).edge k).flow =
      (g.edge k).flow + (if k = m then a else 0) -
        (if k = pairIdx g m then a else 0) ∧
    ((changeFlowStep g a m).edge k).capacity =
      (g.edge k).capacity - (if k = m then a else 0) +
        (if k = pairIdx g m then a else 0) := by
  obtain ⟨hmlen, hrev, hjlen, hjm, _⟩ := hm
  simp only [changeFlowStep, hrev]
  have hglen : ∀ e : Edge, (setEdge g m e).edges.length = g.edges.length :=
    fun e => length_setEdge _ _ _
  by_cases h1 : k = m
  · subst h1
    rw [edge_setEdge_ne _ hjm, edge_setEdge_self _ hmlen]
    have hne : ¬ k = pairIdx g k := fun h => hjm h.symm
    constructor <;> simp [hne] <;> ring
  · by_cases h2 : k = pairIdx g m
    · subst h2
      rw [edge_setEdge_self _ (by rw [hglen]; exact hjlen)]
      constructor <;> simp [h1] <;>
        rw [edge_setEdge_ne _ (fun h => h1 h.symm)]
    · rw [edge_setEdge_ne _ (fun h => h2 h.symm),
        edge_setEdge_ne _ (fun h => h1 h.symm)]
      constructor <;> simp [h1, h2]

theorem changeFlow_struct (g : Graph) (a : Int) :
    ∀ p : List Nat,
      (changeFlow g p a).edges.length = g.edges.length ∧
      (changeFlow g p a).source = g.source ∧
      (changeFlow g p a).target = g.target ∧
      (changeFlow g p a).vertices = g.vertices ∧
      ∀ k, ((changeFlow g p a).edge k).source = (g.edge k).source ∧
        ((changeFlow g p a).edge k).target = (g.edge k).target ∧
        ((changeFlow g p a).edge k).isReverseEdge = (g.edge k).isReverseEdge ∧
        ((changeFlow g p a).edge k).reverseEdge = (g.edge k).reverseEdge := by
  intro p
  induction p generalizing g with
  | nil => simp [changeFlow]
  | cons m p' ih =>
      have hstep := changeFlowStep_struct g a m
      have hrest := ih (changeFlowStep g a m)
      have hfold : changeFlow g (m :: p') a =
          changeFlow (changeFlowStep g a m) p' a := rfl
      rw [hfold]
      refine ⟨hrest.1.trans hstep.1, hrest.2.1.trans hstep.2.1,
        hrest.2.2.1.trans hstep.2.2.1, hrest.2.2.2.1.trans hstep.2.2.2.1, ?_⟩
      intro k
      obtain ⟨r1, r2, r3, r4⟩ := hrest.2.2.2.2 k
      obtain ⟨s1, s2, s3, s4⟩ := hstep.2.2.2.2 k
      exact ⟨r1.trans s1, r2.trans s2, r3.trans s3, r4.trans s4⟩

theorem changeFlow_edge (g : Graph) (a : Int) :
    ∀ (p : List Nat) (k : Nat), (∀ m ∈ p, Paired g m) →
      ((changeFlow g p a).edge k).flow =
        (g.edge k).flow + a * (p.count k : Int) -
          a * ((p.map (pairIdx g)).count k : Int) ∧
      ((changeFlow g p a).edge k).capacity =
        (g.edge k).capacity - a * (p.count k : Int) +
          a * ((p.map (pairIdx g)).count k : Int) := by
  intro p
  induction p generalizing g with
  | nil => simp [changeFlow]
  | cons m p' ih =>
      intro k hp
      have hm : Paired g m := hp m (by simp)
      have hfold : changeFlow g (m :: p') a =
          changeFlow (changeFlowStep g a m) p' a := rfl
      have hp' : ∀ m' ∈ p', Paired (changeFlowStep g a m) m' :=
        fun m' hm' => paired_changeFlowStep g a m (hp m' (by simp [hm']))
      have hmap : p'.map (pairIdx (changeFlowStep g a m)) = p'.map (pairIdx g) :=
        List.map_congr_left (fun x _ => pairIdx_changeFlowStep g a m x)
      obtain ⟨ihf, ihc⟩ := ih (changeFlowStep g a m) k hp'
      obtain ⟨hsf, hsc⟩ := changeFlowStep_edge g a m hm k
      rw [hfold]
      rw [hmap] at ihf ihc
      have hne : ¬ m = pairIdx g m := fun h => hm.2.2.2.1 h.symm
      have hne' : ¬ pairIdx g m = m := hm.2.2.2.1
      constructor
      · rw [ihf, hsf]
        simp only [List.count_cons, List.map_cons, beq_iff_eq]
        by_cases h1 : k = m
        · by_cases h2 : k = pairIdx g m
          · exact absurd (h1.symm.trans h2) hne
          · simp [h1, h2, hne, hne', mul_ite, mul_one, mul_zero]
            push_cast
            ring
        · by_cases h2 : k = pairIdx g m
          · simp [h2, hne, hne', mul_ite, mul_one, mul_zero]
            push_cast
            ring
          · have h1' : ¬ m = k := fun h => h1 h.symm
            have h2' : ¬ pairIdx g m = k := fun h => h2 h.symm
            simp [h1, h2, h1', h2', mul_ite, mul_one, mul_zero]
      · rw [ihc, hsc]
        simp only [List.count_cons, List.map_cons, beq_iff_eq]
        by_cases h1 : k = m
        · by_cases h2 : k = pairIdx g m
          · exact absurd (h1.symm.trans h2) hne
          · simp [h1, h2, hne, hne', mul_ite, mul_one, mul_zero]
            push_cast
            ring
        · by_cases h2 : k = pairIdx g m
          · simp [h2, hne, hne', mul_ite, mul_one, mul_zero]
            push_cast
            ring
          · have h1' : ¬ m = k := fun h => h1 h.symm
            have h2' : ¬ pairIdx g m = k := fun h => h2 h.symm
            simp [h1, h2, h1', h2', mul_ite, mul_one, mul_zero]

/-! ### Bottleneck lemmas -/

theorem foldl_min_le_init (g : Graph) :
    ∀ (p : List Nat) (a : Int),
      p.foldl (fun m i => min m (g.edge i).capacity) a ≤ a := by
  intro p
  induction p with
  | nil => simp
  | cons i rest ih =>
      intro a
      calc (i :: rest).foldl (fun m i => min m (g.edge i).capacity) a
          = rest.foldl (fun m i => min m (g.edge i).capacity)
              (min a (g.edge i).capacity) := rfl
        _ ≤ min a (g.edge i).capacity := ih _
        _ ≤ a := min_le_left _ _

theorem foldl_min_le_mem (g : Graph) :
    ∀ (p : List Nat) (a : Int) (i : Nat), i ∈ p →
      p.foldl (fun m i => min m (g.edge i).capacity) a ≤ (g.edge i).capacity := by
  intro p
  induction p with
  | nil => intro a i h; simp at h
  | cons j rest ih =>
      intro a i h
      rcases List.mem_cons.mp h with rfl | h
      · calc (i :: rest).foldl (fun m i => min m (g.edge i).capacity) a
            = rest.foldl (fun m i => min m (g.edge i).capacity)
                (min a (g.edge i).capacity) := rfl
          _ ≤ min a (g.edge i).capacity := foldl_min_le_init g rest _
          _ ≤ (g.edge i).capacity := min_le_right _ _
      · exact ih _ i h

theorem le_foldl_min (g : Graph) :
    ∀ (p : List Nat) (a c : Int), c ≤ a → (∀ i ∈ p, c ≤ (g.edge i).capacity) →
      c ≤ p.foldl (fun m i => min m (g.edge i).capacity) a := by
  intro p
  induction p with
  | nil => intro a c h _; simpa using h
  | cons j rest ih =>
      intro a c ha hp
      refine ih _ c (le_min ha (hp j (by simp))) (fun i hi => hp i (by simp [hi]))

theorem findMinCapacity_le (g : Graph) (p : List Nat) (i : Nat) (hi : i ∈ p) :
    findMinCapacity g p ≤ (g.edge i).capacity :=
  foldl_min_le_mem g p _ i hi

theorem le_findMinCapacity (g : Graph) (p : List Nat) (c : Int) (hne : p ≠ [])
    (h : ∀ i ∈ p, c ≤ (g.edge i).capacity) : c ≤ findMinCapacity g p := by
  refine le_foldl_min g p _ c ?_ h
  exact h _ (by cases p with
    | nil => exact absurd rfl hne
    | cons j rest => simp [List.headD])

/-! ### Combinatorics of simple chains -/

theorem chainFrom_tail {g : Graph} {x y : Char} {i : Nat} {q : List Nat}
    (hq : q ≠ []) (h : chainFrom g x y (i :: q) = true) :
    chainFrom g (g.edge i).target y q = true := by
  rw [chainFrom_cons hq] at h
  exact ((Bool.and_eq_true _ _).mp h).2

theorem chainFrom_append {g : Graph} {x y : Char} {m : Nat} :
    ∀ (q : List Nat), chainFrom g x y q = true → (g.edge m).source = y →
      chainFrom g x (g.edge m).target (q ++ [m]) = true := by
  intro q
  induction q generalizing x with
  | nil => intro h; simp [chainFrom] at h
  | cons i rest ih =>
      intro h hm
      cases rest with
      | nil =>
          simp [chainFrom] at h
          simp [chainFrom, h.1, h.2 ▸ hm]
      | cons j rest' =>
          have h1 := chainFrom_source h
          have h2 := chainFrom_tail (by simp) h
          have h3 := ih h2 hm
          rw [List.cons_append] at h3
          rw [List.cons_append, chainFrom_cons (by simp)]
          simp only [Bool.and_eq_true, decide_eq_true_eq]
          exact ⟨h1, h3⟩

theorem chain_targets_mem {g : Graph} {y : Char} :
    ∀ (q : List Nat) (x : Char), chainFrom g x y q = true →
      ∀ i ∈ q, (g.edge i).target ∈ edgeTargets g q := by
  intro q x _ i hi
  exact List.mem_map.mpr ⟨i, hi, rfl⟩

theorem chain_ids_nodup {g : Graph} {y : Char} :
    ∀ (q : List Nat) (x : Char), chainFrom g x y q = true →
      (x :: edgeTargets g q).Nodup → q.Nodup := by
  intro q
  induction q with
  | nil => intro x _ _; simp
  | cons i rest ih =>
      intro x hchain hnd
      rcases List.nodup_cons.mp hnd with ⟨hx, hnd'⟩
      rcases List.nodup_cons.mp hnd' with ⟨ht, hnd''⟩
      refine List.nodup_cons.mpr ⟨?_, ?_⟩
      · intro hmem
        exact ht (List.mem_map.mpr ⟨i, hmem, rfl⟩)
      · cases rest with
        | nil => simp
        | cons j rest' =>
            exact ih _ (chainFrom_tail (by simp) hchain)
              (List.nodup_cons.mpr ⟨ht, hnd''⟩)

theorem chain_no_antiparallel {g : Graph} {y : Char} :
    ∀ (q : List Nat) (x : Char), chainFrom g x y q = true →
      (x :: edgeTargets g q).Nodup →
      ∀ k ∈ q, ∀ e ∈ q, (g.edge e).source = (g.edge k).target →
        (g.edge e).target = (g.edge k).source → False := by
  intro q
  induction q with
  | nil => intro x _ _ k hk; simp at hk
  | cons i rest ih =>
      intro x hchain hnd k hk e he hsrc htgt
      rcases List.nodup_cons.mp hnd with ⟨hx, hnd'⟩
      rcases List.nodup_cons.mp hnd' with ⟨ht, hnd''⟩
      have hsrci : (g.edge i).source = x := chainFrom_source hchain
      rcases List.mem_cons.mp hk with rfl | hk' <;>
        rcases List.mem_cons.mp he with he' | he'
      · -- k = i, e = i : self-antiparallel means target i = x
        subst he'
        apply hx
        rw [← hsrci, ← htgt]
        simp [edgeTargets]
      · -- k = i, e ∈ rest : target of e is x, but x is not among targets
        apply hx
        rw [← hsrci, ← htgt]
        exact List.mem_cons_of_mem _ (List.mem_map.mpr ⟨e, he', rfl⟩)
      · -- k ∈ rest, e = i : target of k is x
        subst he'
        apply hx
        rw [← hsrci, hsrc]
        exact List.mem_cons_of_mem _ (List.mem_map.mpr ⟨k, hk', rfl⟩)
      · -- both in rest
        cases rest with
        | nil => simp at hk'
        | cons j rest' =>
            exact ih _ (chainFrom_tail (by simp) hchain)
              (List.nodup_cons.mpr ⟨ht, hnd''⟩) k hk' e he' hsrc htgt

/-! ### Top-level findPath specification -/

theorem insert_source_of_sub {s : Char} {st : Finset Char}
    (h : st ⊆ {s}) : insert s st = {s} := by
  apply Finset.Subset.antisymm
  · rw [Finset.insert_subset_iff]
    exact ⟨Finset.mem_singleton_self s, h⟩
  · exact Finset.singleton_subset_iff.mpr (Finset.mem_insert_self _ _)

theorem findPath_found (g : Graph) (fuel : Nat) {st0 : Finset Char}
    {p : List Nat} {st' : Finset Char} (hsub : st0 ⊆ {g.source})
    (h : findPath g fuel st0 = some (true, p, st')) :
    isAugPath g p ∧ (st' = {g.source} ∨ st' = ∅) := by
  unfold findPath at h
  rw [insert_source_of_sub hsub] at h
  obtain ⟨q, hpq, hqne, hchain, hcaps, hnd, havoid, hstcase⟩ :=
    findPathFrom_true g g.target fuel g.source [] {g.source}
      ((edgesOf g g.source).reverse)
      (fun i hi => mem_edgesOf.mp (List.mem_reverse.mp hi))
      (Finset.mem_singleton_self _) h
  simp only [List.nil_append] at hpq
  subst hpq
  refine ⟨⟨hchain, hcaps, ?_⟩, ?_⟩
  · refine List.nodup_cons.mpr ⟨?_, hnd⟩
    intro hmem
    exact havoid _ hmem (Finset.mem_singleton_self _)
  · rcases hstcase with h2 | h2
    · exact Or.inl h2
    · right
      rw [h2, Finset.erase_eq_empty_iff]
      right
      rfl

theorem findPath_not_found (g : Graph) (fuel : Nat) {st0 : Finset Char}
    {p : List Nat} {st' : Finset Char} (hsub : st0 ⊆ {g.source})
    (h : findPath g fuel st0 = some (false, p, st')) :
    (∀ q, ¬ isAugPath g q) ∧ st' = ∅ := by
  unfold findPath at h
  rw [insert_source_of_sub hsub] at h
  constructor
  · rintro q ⟨hchain, hcaps, hnd⟩
    cases q with
    | nil => simp [chainFrom] at hchain
    | cons e0 qr =>
        have hmem : e0 ∈ (edgesOf g g.source).reverse := by
          rw [List.mem_reverse, mem_edgesOf]
          exact ⟨(hcaps e0 (by simp)).1, chainFrom_source hchain⟩
        rcases List.nodup_cons.mp hnd with ⟨hx, hnd'⟩
        refine findPathFrom_complete g g.target fuel g.source [] {g.source}
          ((edgesOf g g.source).reverse) h e0 qr hmem hchain hcaps hnd' ?_
        intro c hc hcmem
        rw [Finset.mem_singleton] at hcmem
        exact hx (hcmem ▸ hc)
  · obtain ⟨_, hst⟩ := findPathFrom_false g g.target fuel g.source
      []  {g.source} ((edgesOf g g.source).reverse) h
    rw [hst, Finset.erase_eq_empty_iff]
    right
    rfl

/-- Canonical fuel for one `findPath` call on `g`: enough for the deepest
possible search. -/
def pathFuelFor (g : Graph) : Nat :=
  (g.vertices.length + 1) * (g.edges.length + 2)

theorem findPath_isSome (g : Graph) (st0 : Finset Char)
    (hv : ∀ i, i < g.edges.length → (g.edge i).target ∈ g.vertices) :
    findPath g (pathFuelFor g) st0 ≠ none := by
  unfold findPath
  refine findPathFrom_isSome g g.target (pathFuelFor g) g.source []
    (insert g.source st0) ((edgesOf g g.source).reverse)
    (fun i hi => (mem_edgesOf.mp (List.mem_reverse.mp hi)).1) hv
    (by simpa using length_edgesOf_le g g.source) ?_
  have h1 : ((g.vertices.filter
      (fun v => decide (v ∉ insert g.source st0))).length) ≤
      g.vertices.length := List.length_filter_le _ _
  have h2 : (edgesOf g g.source).reverse.length ≤ g.edges.length := by
    simpa using length_edgesOf_le g g.source
  have h3 : ((g.vertices.filter
      (fun v => decide (v ∉ insert g.source st0))).length) *
        (g.edges.length + 2) ≤ g.vertices.length * (g.edges.length + 2) :=
    Nat.mul_le_mul_right _ h1
  unfold pathFuelFor
  generalize hA : ((g.vertices.filter
    (fun v => decide (v ∉ insert g.source st0))).length) *
      (g.edges.length + 2) = A at *
  have : (g.vertices.length + 1) * (g.edges.length + 2) =
      g.vertices.length * (g.edges.length + 2) + (g.edges.length + 2) := by
    ring
  generalize hB : g.vertices.length * (g.edges.length + 2) = B at *
  omega

/-! ### Flow assignments over the input edge list (specification side)

These definitions follow the specification's vocabulary for "valid flow
assignment": a value per input edge, within capacity, conserved at every
vertex other than the overall source and target; its value is the net flow
out of the source. -/

/-- Source label of input edge `i`. -/
def inpSrc (inp : List (Char × Char × Int)) (i : Nat) : Char :=
  (inp.getD i ('?', '?', 0)).1

/-- Target label of input edge `i`. -/
def inpTgt (inp : List (Char × Char × Int)) (i : Nat) : Char :=
  (inp.getD i ('?', '?', 0)).2.1

/-- Capacity of input edge `i`. -/
def inpCap (inp : List (Char × Char × Int)) (i : Nat) : Int :=
  (inp.getD i ('?', '?', 0)).2.2

/-- Vertex name list produced by `readGraph` for this input. -/
def vertsOf (inp : List (Char × Char × Int)) : List Char :=
  sortLe charLe ((inp.flatMap (fun x => [x.1, x.2.1])).dedup)

/-- Flow currently stored on arena edge `i`. -/
def flowOf (g : Graph) (i : Nat) : Int := (g.edge i).flow

/-- Total flow assigned by `f` to input edges entering `v`. -/
def inSum (inp : List (Char × Char × Int)) (f : Nat → Int) (v : Char) : Int :=
  ∑ i ∈ Finset.range inp.length, if inpTgt inp i = v then f i else 0

/-- Total flow assigned by `f` to input edges leaving `v`. -/
def outSum (inp : List (Char × Char × Int)) (f : Nat → Int) (v : Char) : Int :=
  ∑ i ∈ Finset.range inp.length, if inpSrc inp i = v then f i else 0

/-- A valid flow assignment on the input graph: within capacity on every
input edge and conserved at every vertex other than `sN` and `tN`. -/
def Feasible (inp : List (Char × Char × Int)) (sN tN : Char)
    (f : Nat → Int) : Prop :=
  (∀ i, i < inp.length → 0 ≤ f i ∧ f i ≤ inpCap inp i) ∧
  (∀ v, v ≠ sN → v ≠ tN → inSum inp f v = outSum inp f v)

/-- Value of a flow assignment: net flow out of the source. -/
def flowValue (inp : List (Char × Char × Int)) (sN : Char)
    (f : Nat → Int) : Int :=
  outSum inp f sN - inSum inp f sN

/-- `V` is the maximum flow value of the input graph: some valid assignment
attains it and no valid assignment exceeds it. -/
def IsMaxFlowValue (inp : List (Char × Char × Int)) (sN tN : Char)
    (V : Int) : Prop :=
  (∃ f, Feasible inp sN tN f ∧ flowValue inp sN f = V) ∧
  (∀ f, Feasible inp sN tN f → flowValue inp sN f ≤ V)

/-- Total flow on arena edges (of the current graph) entering `v`. -/
def inFlowAll (g : Graph) (v : Char) : Int :=
  ∑ i ∈ Finset.range g.edges.length,
    if (g.edge i).target = v then (g.edge i).flow else 0

/-- Total flow on arena edges (of the current graph) leaving `v`. -/
def outFlowAll (g : Graph) (v : Char) : Int :=
  ∑ i ∈ Finset.range g.edges.length,
    if (g.edge i).source = v then (g.edge i).flow else 0

/-- Total residual capacity on edges leaving the overall source; Nat-valued
termination measure of the driver loop. -/
def srcCapSum (g : Graph) : Int :=
  ∑ i ∈ Finset.range g.edges.length,
    if (g.edge i).source = g.source then (g.edge i).capacity else 0

/-! ### Driver loop invariants -/

/-- Structural invariant of every driver state reachable from
`readGraph`-constructed input after residual construction: arena layout
(original edges first, then reverse edges), mutual pairing, endpoint/flag
facts, per-edge flow conservation against the input capacity, and anti-
symmetry of the flow/capacity redistribution inside each pair. -/
structure DInvP (inp : List (Char × Char × Int)) (sN tN : Char)
    (s : DState) : Prop where
  src_eq : s.g.source = sN
  tgt_eq : s.g.target = tN
  verts_eq : s.g.vertices = vertsOf inp
  len_eq : s.g.edges.length = 2 * inp.length
  orig : ∀ i, i < inp.length →
    (s.g.edge i).source = inpSrc inp i ∧
    (s.g.edge i).target = inpTgt inp i ∧
    (s.g.edge i).isReverseEdge = false ∧
    (s.g.edge i).flow + (s.g.edge i).capacity = inpCap inp i
  pair : ∀ i, i < inp.length →
    (s.g.edge i).reverseEdge = some (pairIdx s.g i) ∧
    inp.length ≤ pairIdx s.g i ∧ pairIdx s.g i < 2 * inp.length ∧
    (s.g.edge (pairIdx s.g i)).reverseEdge = some i ∧
    (s.g.edge (pairIdx s.g i)).source = inpTgt inp i ∧
    (s.g.edge (pairIdx s.g i)).target = inpSrc inp i ∧
    (s.g.edge (pairIdx s.g i)).isReverseEdge = true ∧
    (s.g.edge (pairIdx s.g i)).flow = -(s.g.edge i).flow ∧
    (s.g.edge i).capacity + (s.g.edge (pairIdx s.g i)).capacity = inpCap inp i
  rev : ∀ j, inp.length ≤ j → j < 2 * inp.length →
    pairIdx s.g j < inp.length ∧
    (s.g.edge j).reverseEdge = some (pairIdx s.g j) ∧
    (s.g.edge (pairIdx s.g j)).reverseEdge = some j
  ends : ∀ i, i < 2 * inp.length →
    (s.g.edge i).source ∈ vertsOf inp ∧ (s.g.edge i).target ∈ vertsOf inp
  st_sub : s.st ⊆ {sN}

/-- Sign/conservation invariant of reachable driver states, available when
the input capacities are nonnegative: residual capacities stay nonnegative,
original-edge flows are conserved at internal vertices, and the accumulator
equals the value of the current flow assignment. -/
structure DInvF (inp : List (Char × Char × Int)) (sN tN : Char)
    (s : DState) : Prop where
  caps : ∀ i, i < 2 * inp.length → 0 ≤ (s.g.edge i).capacity
  cons : ∀ v, v ≠ sN → v ≠ tN →
    inSum inp (flowOf s.g) v = outSum inp (flowOf s.g) v
  val : flowValue inp sN (flowOf s.g) = s.acc

/-! ### Residual construction: effect of addReverseFor -/

theorem addReverseFor_some {g : Graph} {m j : Nat}
    (hrev : (g.edge m).reverseEdge = some j) : addReverseFor g m = g := by
  simp [addReverseFor, hrev]

theorem addReverseFor_none {g : Graph} {m : Nat} (hm : m < g.edges.length)
    (hrev : (g.edge m).reverseEdge = none) :
    (addReverseFor g m).edges.length = g.edges.length + 1 ∧
    (addReverseFor g m).source = g.source ∧
    (addReverseFor g m).target = g.target ∧
    (addReverseFor g m).vertices = g.vertices ∧
    (addReverseFor g m).edge m =
      { g.edge m with reverseEdge := some g.edges.length } ∧
    (addReverseFor g m).edge g.edges.length =
      { source := (g.edge m).target, target := (g.edge m).source,
        capacity := 0, flow := 0, isReverseEdge := true,
        reverseEdge := some m } ∧
    (∀ k, k ≠ m → k ≠ g.edges.length →
      (addReverseFor g m).edge k = g.edge k) := by
  simp only [addReverseFor, hrev]
  refine ⟨by simp, by trivial, by trivial, by trivial, ?_, ?_, ?_⟩
  · show (List.getD _ m dEdge) = _
    rw [List.getD_eq_getElem?_getD,
      List.getElem?_append_left (by simpa using hm),
      List.getElem?_set_self (by simpa using hm)]
    rfl
  · show (List.getD _ g.edges.length dEdge) = _
    rw [List.getD_eq_getElem?_getD,
      List.getElem?_append_right (by simp)]
    simp
  · intro k hkm hklen
    show (List.getD _ k dEdge) = _
    by_cases hk : k < g.edges.length
    · rw [List.getD_eq_getElem?_getD,
        List.getElem?_append_left (by simpa using hk),
        List.getElem?_set_ne (fun h => hkm h.symm)]
      rw [Graph.edge, List.getD_eq_getElem?_getD]
    · have hgt : g.edges.length + 1 ≤ k := by omega
      rw [List.getD_eq_getElem?_getD, List.getElem?_eq_none (by simpa using hgt)]
      rw [Graph.edge, List.getD_eq_getElem?_getD,
        List.getElem?_eq_none (by omega)]

/-! ### Residual construction: the build invariant and its fold -/

/-- Invariant of the graph during the fold of `addReverseEdges` over a
`readGraph`-constructed graph: original edges (indices below the input
length) are untouched except possibly for a reverse link; everything beyond
is a properly linked, zero-capacity, zero-flow reverse edge. -/
structure BuildInv (inp : List (Char × Char × Int)) (sN tN : Char)
    (g : Graph) : Prop where
  src_eq : g.source = sN
  tgt_eq : g.target = tN
  verts_eq : g.vertices = vertsOf inp
  len_lb : inp.length ≤ g.edges.length
  orig : ∀ i, i < inp.length →
    (g.edge i).source = inpSrc inp i ∧ (g.edge i).target = inpTgt inp i ∧
    (g.edge i).isReverseEdge = false ∧ (g.edge i).flow = 0 ∧
    (g.edge i).capacity = inpCap inp i
  origrev : ∀ i, i < inp.length → (g.edge i).reverseEdge = none ∨
    ((g.edge i).reverseEdge = some (pairIdx g i) ∧
      inp.length ≤ pairIdx g i ∧ pairIdx g i < g.edges.length ∧
      (g.edge (pairIdx g i)).reverseEdge = some i)
  rev : ∀ j, inp.length ≤ j → j < g.edges.length →
    pairIdx g j < inp.length ∧
    (g.edge j).reverseEdge = some (pairIdx g j) ∧
    (g.edge (pairIdx g j)).reverseEdge = some j ∧
    (g.edge j).source = inpTgt inp (pairIdx g j) ∧
    (g.edge j).target = inpSrc inp (pairIdx g j) ∧
    (g.edge j).isReverseEdge = true ∧ (g.edge j).flow = 0 ∧
    (g.edge j).capacity = 0

theorem addReverse_fold (inp : List (Char × Char × Int)) (sN tN : Char) :
    ∀ (todo : List Nat) (g : Graph), BuildInv inp sN tN g →
      (∀ m ∈ todo, m < inp.length ∧ (g.edge m).reverseEdge = none) →
      todo.Nodup →
      g.edges.length + todo.length = 2 * inp.length →
      (∀ i, i < inp.length → i ∈ todo ∨ (g.edge i).reverseEdge ≠ none) →
      BuildInv inp sN tN (todo.foldl addReverseFor g) ∧
      (todo.foldl addReverseFor g).edges.length = 2 * inp.length ∧
      (∀ i, i < inp.length →
        ((todo.foldl addReverseFor g).edge i).reverseEdge ≠ none) := by
  intro todo
  induction todo with
  | nil =>
      intro g hInv _ _ hlen hcov
      refine ⟨hInv, by simpa using hlen, ?_⟩
      intro i hi
      rcases hcov i hi with h | h
      · simp at h
      · exact h
  | cons m rest ih =>
      intro g hInv htodo hnd hlen hcov
      obtain ⟨hmN, hmnone⟩ := htodo m (by simp)
      have hm : m < g.edges.length := lt_of_lt_of_le hmN hInv.len_lb
      obtain ⟨glen, gsrc, gtgt, gverts, gedgem, gedgenew, gother⟩ :=
        addReverseFor_none hm hmnone
      have hfold : (m :: rest).foldl addReverseFor g =
          rest.foldl addReverseFor (addReverseFor g m) := rfl
      rw [hfold]
      set g' := addReverseFor g m with hg'
      have hlb := hInv.len_lb
      -- indices below the input length other than m are untouched
      have hothersmall : ∀ i, i < inp.length → i ≠ m → g'.edge i = g.edge i :=
        fun i hi hne => gother i hne (by omega)
      have hpairm : pairIdx g' m = g.edges.length := by
        simp [pairIdx, gedgem]
      refine ih g' ⟨gsrc.trans hInv.src_eq, gtgt.trans hInv.tgt_eq,
        gverts.trans hInv.verts_eq, by omega, ?_, ?_, ?_⟩ ?_ (hnd.of_cons)
        (by simp at hlen ⊢; omega) ?_
      · -- orig fields
        intro i hi
        by_cases hne : i = m
        · subst hne
          rw [gedgem]
          have := hInv.orig i hi
          simpa using this
        · rw [hothersmall i hi hne]
          exact hInv.orig i hi
      · -- origrev
        intro i hi
        by_cases hne : i = m
        · subst hne
          right
          rw [hpairm, gedgem, gedgenew]
          exact ⟨rfl, by omega, by omega, rfl⟩
        · rw [hothersmall i hi hne]
          rcases hInv.origrev i hi with h | ⟨h1, h2, h3, h4⟩
          · exact Or.inl h
          · right
            have hpi : pairIdx g' i = pairIdx g i := by
              simp [pairIdx, hothersmall i hi hne]
            have hpij : g'.edge (pairIdx g i) = g.edge (pairIdx g i) := by
              refine gother _ (fun hEq => ?_) (by omega)
              rw [hEq] at h4
              rw [h4] at hmnone
              exact Option.noConfusion hmnone
            rw [hpi, hpij]
            exact ⟨h1, h2, by omega, h4⟩
      · -- rev
        intro j hjN hjlen
        by_cases hnew : j = g.edges.length
        · subst hnew
          rw [gedgenew]
          have hpj : pairIdx g' g.edges.length = m := by
            simp [pairIdx, gedgenew]
          rw [hpj, gedgem]
          obtain ⟨o1, o2, _, o4, o5⟩ := hInv.orig m hmN
          exact ⟨hmN, rfl, rfl, by simpa using o2, by simpa using o1,
            rfl, rfl, rfl⟩
        · have hjold : j < g.edges.length := by
            have : j < g.edges.length + 1 := by omega
            omega
          have hjne : g'.edge j = g.edge j := by
            refine gother j (fun hEq => ?_) hnew
            · have := hInv.rev j hjN (hEq ▸ hjold)
              omega
          obtain ⟨r1, r2, r3, r4, r5, r6, r7, r8⟩ := hInv.rev j hjN hjold
          have hpj : pairIdx g' j = pairIdx g j := by simp [pairIdx, hjne]
          have hpjm : pairIdx g j ≠ m := by
            intro hEq
            rw [hEq] at r3
            rw [r3] at hmnone
            exact Option.noConfusion hmnone
          have hpje : g'.edge (pairIdx g j) = g.edge (pairIdx g j) :=
            hothersmall _ r1 hpjm
          rw [hjne, hpj, hpje]
          exact ⟨r1, r2, r3, r4, r5, r6, r7, r8⟩
      · -- remaining worklist is still unlinked
        intro m' hm'
        obtain ⟨hN, hnone⟩ := htodo m' (by simp [hm'])
        refine ⟨hN, ?_⟩
        have hne : m' ≠ m := by
          rintro rfl
          exact (List.nodup_cons.mp hnd).1 hm'
        rw [hothersmall m' hN hne]
        exact hnone
      · -- coverage
        intro i hi
        rcases hcov i hi with h | h
        · rcases List.mem_cons.mp h with rfl | h'
          · right
            rw [gedgem]
            simp
          · exact Or.inl h'
        · right
          by_cases hne : i = m
          · subst hne
            rw [gedgem]
            simp
          · rw [hothersmall i hi hne]
            exact h

/-! ### readGraph characterization -/

theorem readGraph_ok {sN tN : Char} {inp : List (Char × Char × Int)}
    {g : Graph} (h : readGraph sN tN inp = .ok g) :
    g.edges = inp.map (fun x =>
      ({ source := x.1, target := x.2.1, capacity := x.2.2, flow := 0,
         isReverseEdge := false, reverseEdge := none } : Edge)) ∧
    g.vertices = vertsOf inp ∧ g.source = sN ∧ g.target = tN ∧
    sN ∈ vertsOf inp ∧ tN ∈ vertsOf inp := by
  simp only [readGraph] at h
  split at h
  · next h1 =>
      split at h
      · next h2 =>
          cases h
          refine ⟨rfl, rfl, rfl, rfl, ?_, ?_⟩ <;>
            rw [vertsOf, mem_sortLe, List.mem_dedup]
          · exact h1
          · exact h2
      · exact absurd h (by simp)
  · exact absurd h (by simp)

theorem readGraph_len {sN tN : Char} {inp : List (Char × Char × Int)}
    {g : Graph} (h : readGraph sN tN inp = .ok g) :
    g.edges.length = inp.length := by
  rw [(readGraph_ok h).1, List.length_map]

theorem readGraph_edge {sN tN : Char} {inp : List (Char × Char × Int)}
    {g : Graph} (h : readGraph sN tN inp = .ok g) {i : Nat}
    (hi : i < inp.length) :
    g.edge i =
      { source := inpSrc inp i, target := inpTgt inp i,
        capacity := inpCap inp i, flow := 0, isReverseEdge := false,
        reverseEdge := none } := by
  rw [Graph.edge, (readGraph_ok h).1, List.getD_eq_getElem?_getD,
    List.getElem?_map, List.getElem?_eq_getElem hi]
  simp [inpSrc, inpTgt, inpCap, List.getD_eq_getElem?_getD,
    List.getElem?_eq_getElem hi]

theorem inp_comp_mem_verts {inp : List (Char × Char × Int)} {i : Nat}
    (hi : i < inp.length) :
    inpSrc inp i ∈ vertsOf inp ∧ inpTgt inp i ∈ vertsOf inp := by
  have hmem : inp.getD i ('?', '?', 0) ∈ inp := by
    rw [List.getD_eq_getElem?_getD, List.getElem?_eq_getElem hi]
    exact List.getElem_mem hi
  constructor <;>
    · rw [vertsOf, mem_sortLe, List.mem_dedup]
      refine List.mem_flatMap.mpr ⟨inp.getD i ('?', '?', 0), hmem, ?_⟩
      simp [inpSrc, inpTgt]

theorem vertsOf_nodup (inp : List (Char × Char × Int)) :
    (vertsOf inp).Nodup :=
  (sortLe_perm charLe _).symm.nodup (List.nodup_dedup _)

theorem edgesOf_nodup (g : Graph) (v : Char) : (edgesOf g v).Nodup :=
  (sortLe_perm (edgeLe g) _).symm.nodup
    (List.Nodup.filter _ (List.nodup_range _))

theorem processOrder_nodup (g : Graph) (h : g.vertices.Nodup) :
    (processOrder g).Nodup := by
  unfold processOrder
  have : ∀ vs : List Char, vs.Nodup →
      (vs.flatMap (fun v => edgesOf g v)).Nodup := by
    intro vs
    induction vs with
    | nil => simp
    | cons v vs ih =>
        intro hnd
        rcases List.nodup_cons.mp hnd with ⟨hv, hnd'⟩
        rw [List.flatMap_cons, List.nodup_append]
        refine ⟨edgesOf_nodup g v, ih hnd', ?_⟩
        intro m hm hm'
        rcases List.mem_flatMap.mp hm' with ⟨v', hv', hmv'⟩
        have h1 := (mem_edgesOf.mp hm).2
        have h2 := (mem_edgesOf.mp hmv').2
        exact hv ((h1.symm.trans h2) ▸ hv')
  exact this _ h

/-! ### Establishment of the driver invariants -/

theorem buildInv_readGraph {sN tN : Char} {inp : List (Char × Char × Int)}
    {g0 : Graph} (h : readGraph sN tN inp = .ok g0) :
    BuildInv inp sN tN g0 := by
  obtain ⟨he, hv, hs, ht, _, _⟩ := readGraph_ok h
  have hlen := readGraph_len h
  refine ⟨hs, ht, hv, by omega, ?_, ?_, ?_⟩
  · intro i hi
    rw [readGraph_edge h hi]
    exact ⟨rfl, rfl, rfl, rfl, rfl⟩
  · intro i hi
    left
    rw [readGraph_edge h hi]
  · intro j hj hjlen
    omega

theorem addReverseEdges_spec {sN tN : Char} {inp : List (Char × Char × Int)}
    {g0 : Graph} (h : readGraph sN tN inp = .ok g0) :
    BuildInv inp sN tN (addReverseEdges g0) ∧
    (addReverseEdges g0).edges.length = 2 * inp.length ∧
    (∀ i, i < inp.length →
      ((addReverseEdges g0).edge i).reverseEdge ≠ none) := by
  have hB := buildInv_readGraph h
  have hlen := readGraph_len h
  have htodo : ∀ m ∈ processOrder g0,
      m < inp.length ∧ (g0.edge m).reverseEdge = none := by
    intro m hm
    obtain ⟨_, hmlen⟩ := mem_processOrder.mp hm
    have hmN : m < inp.length := by omega
    exact ⟨hmN, by rw [readGraph_edge h hmN]⟩
  have hnd : (processOrder g0).Nodup :=
    processOrder_nodup g0 (hB.verts_eq ▸ vertsOf_nodup inp)
  have hcov : ∀ i, i < inp.length → i ∈ processOrder g0 := by
    intro i hi
    refine mem_processOrder.mpr ⟨?_, by omega⟩
    rw [readGraph_edge h hi, hB.verts_eq]
    exact (inp_comp_mem_verts hi).1
  have hperm : (processOrder g0).Perm (List.range inp.length) := by
    rw [List.perm_ext_iff_of_nodup hnd (List.nodup_range _)]
    intro a
    rw [List.mem_range]
    constructor
    · intro ha
      have := (mem_processOrder.mp ha).2
      omega
    · exact hcov a
  have hplen : (processOrder g0).length = inp.length := by
    rw [hperm.length_eq, List.length_range]
  exact addReverse_fold inp sN tN (processOrder g0) g0 hB htodo hnd
    (by omega) (fun i hi => Or.inl (hcov i hi))

theorem dinvP_init {sN tN : Char} {inp : List (Char × Char × Int)}
    {g0 : Graph} (h : readGraph sN tN inp = .ok g0) :
    DInvP inp sN tN (initState g0) := by
  obtain ⟨hBI, hflen, hlinked⟩ := addReverseEdges_spec h
  set gf := addReverseEdges g0 with hgf
  have hinit : (initState g0).g = gf := rfl
  have hpair : ∀ i, i < inp.length →
      (gf.edge i).reverseEdge = some (pairIdx gf i) ∧
      inp.length ≤ pairIdx gf i ∧ pairIdx gf i < 2 * inp.length ∧
      (gf.edge (pairIdx gf i)).reverseEdge = some i := by
    intro i hi
    rcases hBI.origrev i hi with hnone | ⟨h1, h2, h3, h4⟩
    · exact absurd hnone (hlinked i hi)
    · exact ⟨h1, h2, by omega, h4⟩
  constructor
  case src_eq => rw [hinit, hBI.src_eq]
  case tgt_eq => rw [hinit, hBI.tgt_eq]
  case verts_eq => rw [hinit, hBI.verts_eq]
  case len_eq => rw [hinit, hflen]
  case orig =>
      intro i hi
      obtain ⟨o1, o2, o3, o4, o5⟩ := hBI.orig i hi
      rw [hinit]
      exact ⟨o1, o2, o3, by rw [o4, o5]; ring⟩
  case pair =>
      intro i hi
      obtain ⟨p1, p2, p3, p4⟩ := hpair i hi
      obtain ⟨r1, r2, r3, r4, r5, r6, r7, r8⟩ :=
        hBI.rev (pairIdx gf i) p2 (by omega)
      have hpj : pairIdx gf (pairIdx gf i) = i := by
        exact Option.some_inj.mp (r2.symm.trans p4)
      rw [hpj] at r4 r5
      obtain ⟨o1, o2, o3, o4, o5⟩ := hBI.orig i hi
      rw [hinit]
      exact ⟨p1, p2, p3, p4, r4, r5, r6, by rw [r7, o4]; ring,
        by rw [o5, r8]; ring⟩
  case rev =>
      intro j hj hjlen
      have := hBI.rev j hj (by omega)
      rw [hinit]
      exact ⟨this.1, this.2.1, this.2.2.1⟩
  case ends =>
      intro i hi
      rw [hinit]
      by_cases hiN : i < inp.length
      · obtain ⟨o1, o2, _, _, _⟩ := hBI.orig i hiN
        rw [o1, o2]
        exact ⟨(inp_comp_mem_verts hiN).1, (inp_comp_mem_verts hiN).2⟩
      · obtain ⟨r1, _, _, r4, r5, _, _, _⟩ :=
          hBI.rev i (by omega) (by omega)
        rw [r4, r5]
        exact ⟨(inp_comp_mem_verts r1).2, (inp_comp_mem_verts r1).1⟩
  case st_sub => exact Finset.empty_subset _

theorem dinvF_init {sN tN : Char} {inp : List (Char × Char × Int)}
    {g0 : Graph} (h : readGraph sN tN inp = .ok g0)
    (hcaps : ∀ i, i < inp.length → 0 ≤ inpCap inp i) :
    DInvF inp sN tN (initState g0) := by
  obtain ⟨hBI, hflen, hlinked⟩ := addReverseEdges_spec h
  have hinit : (initState g0).g = addReverseEdges g0 := rfl
  have hflow0 : ∀ i, i < inp.length → flowOf (initState g0).g i = 0 := by
    intro i hi
    rw [flowOf, hinit, (hBI.orig i hi).2.2.2.1]
  have hzin : ∀ v, inSum inp (flowOf (initState g0).g) v = 0 := by
    intro v
    rw [inSum]
    refine Finset.sum_eq_zero ?_
    intro i hi
    rw [hflow0 i (Finset.mem_range.mp hi)]
    simp
  have hzout : ∀ v, outSum inp (flowOf (initState g0).g) v = 0 := by
    intro v
    rw [outSum]
    refine Finset.sum_eq_zero ?_
    intro i hi
    rw [hflow0 i (Finset.mem_range.mp hi)]
    simp
  constructor
  case caps =>
      intro i hi
      rw [hinit]
      by_cases hiN : i < inp.length
      · rw [(hBI.orig i hiN).2.2.2.2]
        exact hcaps i hiN
      · rw [(hBI.rev i (by omega) (by omega)).2.2.2.2.2.2.2]
  case cons =>
      intro v _ _
      rw [hzin, hzout]
  case val =>
      rw [flowValue, hzin, hzout]
      simp [initState]

/-! ### Consequences of the pairing invariant -/

theorem dinvP_paired {inp : List (Char × Char × Int)} {sN tN : Char}
    {s : DState} (hP : DInvP inp sN tN s) :
    ∀ m, m < 2 * inp.length → Paired s.g m := by
  intro m hm
  have hlen := hP.len_eq
  by_cases hN : m < inp.length
  · obtain ⟨p1, p2, p3, p4, _, _, _, _, _⟩ := hP.pair m hN
    exact ⟨by omega, p1, by omega, by omega, p4⟩
  · obtain ⟨r1, r2, r3⟩ := hP.rev m (by omega) hm
    exact ⟨by omega, r2, by omega, by omega, r3⟩

theorem pairIdx_eq_of_rev {g : Graph} {m j : Nat}
    (h : (g.edge m).reverseEdge = some j) : pairIdx g m = j := by
  simp [pairIdx, h]

theorem dinvP_invol {inp : List (Char × Char × Int)} {sN tN : Char}
    {s : DState} (hP : DInvP inp sN tN s) :
    ∀ m, m < 2 * inp.length →
      pairIdx s.g (pairIdx s.g m) = m ∧ pairIdx s.g m < 2 * inp.length := by
  intro m hm
  by_cases hN : m < inp.length
  · obtain ⟨p1, p2, p3, p4, _, _, _, _, _⟩ := hP.pair m hN
    exact ⟨pairIdx_eq_of_rev p4, p3⟩
  · obtain ⟨r1, r2, r3⟩ := hP.rev m (by omega) hm
    exact ⟨pairIdx_eq_of_rev r3, by omega⟩

theorem dinvP_pair_endpoints {inp : List (Char × Char × Int)} {sN tN : Char}
    {s : DState} (hP : DInvP inp sN tN s) :
    ∀ m, m < 2 * inp.length →
      (s.g.edge (pairIdx s.g m)).source = (s.g.edge m).target ∧
      (s.g.edge (pairIdx s.g m)).target = (s.g.edge m).source := by
  intro m hm
  by_cases hN : m < inp.length
  · obtain ⟨_, _, _, _, p5, p6, _, _, _⟩ := hP.pair m hN
    obtain ⟨o1, o2, _, _⟩ := hP.orig m hN
    exact ⟨p5.trans o2.symm, p6.trans o1.symm⟩
  · obtain ⟨r1, r2, r3⟩ := hP.rev m (by omega) hm
    obtain ⟨_, _, _, p4, p5, p6, _, _, _⟩ := hP.pair (pairIdx s.g m) r1
    obtain ⟨o1, o2, _, _⟩ := hP.orig (pairIdx s.g m) r1
    have hpp : pairIdx s.g (pairIdx s.g m) = m := pairIdx_eq_of_rev r3
    rw [hpp] at p5 p6
    exact ⟨o1.trans p6.symm, o2.trans p5.symm⟩

/-- Count of `i` among the pairs of a list of properly paired edges equals
the count of the pair of `i` in the list itself. -/
theorem count_map_pairIdx (g : Graph) (i : Nat)
    (hi : pairIdx g (pairIdx g i) = i) :
    ∀ p : List Nat, (∀ m ∈ p, pairIdx g (pairIdx g m) = m) →
      (p.map (pairIdx g)).count i = p.count (pairIdx g i) := by
  intro p
  induction p with
  | nil => simp
  | cons m rest ih =>
      intro hp
      have hiff : (pairIdx g m = i) ↔ (m = pairIdx g i) := by
        constructor
        · intro h
          rw [← hp m (by simp), h]
        · intro h
          rw [h, hi]
      simp only [List.map_cons, List.count_cons, beq_iff_eq]
      rw [ih (fun m' hm' => hp m' (by simp [hm']))]
      by_cases h : pairIdx g m = i
      · rw [if_pos h, if_pos (hiff.mp h)]
      · rw [if_neg h, if_neg (fun hc => h (hiff.mpr hc))]

/-! ### Preservation of the pairing invariant by one driver step -/

theorem dinvP_step {inp : List (Char × Char × Int)} {sN tN : Char}
    {pf : Nat} {s : DState} {fl : Bool} {s' : DState}
    (hP : DInvP inp sN tN s) (h : driverStep pf s = some (fl, s')) :
    DInvP inp sN tN s' := by
  have hsub : s.st ⊆ {s.g.source} := by rw [hP.src_eq]; exact hP.st_sub
  unfold driverStep at h
  match hfp : findPath s.g pf s.st with
  | none => rw [hfp] at h; exact Option.noConfusion h
  | some (false, p0, st') =>
      rw [hfp] at h
      simp only [Option.some.injEq, Prod.mk.injEq] at h
      obtain ⟨_, hs'⟩ := h
      obtain ⟨_, hst'⟩ := findPath_not_found s.g pf hsub hfp
      subst hs'
      exact ⟨hP.src_eq, hP.tgt_eq, hP.verts_eq, hP.len_eq, hP.orig, hP.pair,
        hP.rev, hP.ends, by rw [hst']; exact Finset.empty_subset _⟩
  | some (true, p, st') =>
      rw [hfp] at h
      simp only [Option.some.injEq, Prod.mk.injEq] at h
      obtain ⟨_, hs'⟩ := h
      subst hs'
      obtain ⟨⟨hchain, hvalid, hnd⟩, hstcase⟩ := findPath_found s.g pf hsub hfp
      have hlen := hP.len_eq
      have hpairedAll : ∀ m ∈ p, Paired s.g m :=
        fun m hm => dinvP_paired hP m (by have := (hvalid m hm).1; omega)
      have hinvolAll : ∀ m ∈ p, pairIdx s.g (pairIdx s.g m) = m :=
        fun m hm => (dinvP_invol hP m (by have := (hvalid m hm).1; omega)).1
      set b := findMinCapacity s.g p with hb
      obtain ⟨c1, c2, c3, c4, c5⟩ := changeFlow_struct s.g b p
      have hCE := fun k => changeFlow_edge s.g b p k hpairedAll
      have hpi : ∀ k, pairIdx (changeFlow s.g p b) k = pairIdx s.g k :=
        fun k => by simp [pairIdx, (c5 k).2.2.2]
      constructor
      case src_eq => exact c2.trans hP.src_eq
      case tgt_eq => exact c3.trans hP.tgt_eq
      case verts_eq => exact c4.trans hP.verts_eq
      case len_eq => exact c1.trans hP.len_eq
      case orig =>
          intro i hi
          obtain ⟨o1, o2, o3, o4⟩ := hP.orig i hi
          refine ⟨(c5 i).1.trans o1, (c5 i).2.1.trans o2,
            (c5 i).2.2.1.trans o3, ?_⟩
          have hf := (hCE i).1
          have hc := (hCE i).2
          show ((changeFlow s.g p b).edge i).flow +
            ((changeFlow s.g p b).edge i).capacity = inpCap inp i
          rw [hf, hc]
          linarith
      case pair =>
          intro i hi
          obtain ⟨p1, p2, p3, p4, p5, p6, p7, p8, p9⟩ := hP.pair i hi
          have hii : i < 2 * inp.length := by omega
          have hinvi := (dinvP_invol hP i hii).1
          have hinvj := (dinvP_invol hP (pairIdx s.g i) p3).1
          have hcnti : (p.map (pairIdx s.g)).count i = p.count (pairIdx s.g i) :=
            count_map_pairIdx s.g i hinvi p hinvolAll
          have hcntj : (p.map (pairIdx s.g)).count (pairIdx s.g i) =
              p.count (pairIdx s.g (pairIdx s.g i)) :=
            count_map_pairIdx s.g (pairIdx s.g i) hinvj p hinvolAll
          rw [hinvi] at hcntj
          refine ⟨?_, ?_, ?_, ?_, ?_, ?_, ?_, ?_, ?_⟩
          · rw [hpi i, (c5 i).2.2.2]
            exact p1
          · rw [hpi i]; exact p2
          · rw [hpi i]; exact p3
          · rw [hpi i, (c5 _).2.2.2]
            exact p4
          · rw [hpi i, (c5 _).1]
            exact p5
          · rw [hpi i, (c5 _).2.1]
            exact p6
          · rw [hpi i, (c5 _).2.2.1]
            exact p7
          · rw [hpi i]
            have hfj := (hCE (pairIdx s.g i)).1
            have hfi := (hCE i).1
            rw [hfj, hfi, hcnti, hcntj]
            linarith
          · rw [hpi i]
            have hcj := (hCE (pairIdx s.g i)).2
            have hci := (hCE i).2
            rw [hcj, hci, hcnti, hcntj]
            linarith
      case rev =>
          intro j hj hjlen
          obtain ⟨r1, r2, r3⟩ := hP.rev j hj hjlen
          refine ⟨by rw [hpi j]; exact r1, ?_, ?_⟩
          · rw [hpi j, (c5 j).2.2.2]
            exact r2
          · rw [hpi j, (c5 _).2.2.2]
            exact r3
      case ends =>
          intro i hi
          obtain ⟨e1, e2⟩ := hP.ends i hi
          constructor
          · rw [(c5 i).1]; exact e1
          · rw [(c5 i).2.1]; exact e2
      case st_sub =>
          rcases hstcase with h2 | h2 <;> rw [h2]
          · rw [hP.src_eq]
          · exact Finset.empty_subset _

/-! ### Net-flow bookkeeping for one augmentation -/

/-- Net original-edge flow into `v` minus out of `v` for the current graph. -/
def netQ (inp : List (Char × Char × Int)) (g : Graph) (v : Char) : Int :=
  inSum inp (flowOf g) v - outSum inp (flowOf g) v

theorem inSum_change {inp : List (Char × Char × Int)} {f f' : Nat → Int}
    {k : Nat} {c : Int} (hk : k < inp.length)
    (h : ∀ i, i < inp.length → f' i = f i + (if i = k then c else 0))
    (v : Char) :
    inSum inp f' v = inSum inp f v + (if inpTgt inp k = v then c else 0) := by
  have hsplit : ∀ i ∈ Finset.range inp.length,
      (if inpTgt inp i = v then f' i else 0) =
      (if inpTgt inp i = v then f i else 0) +
        (if i = k then (if inpTgt inp i = v then c else 0) else 0) := by
    intro i hi
    rw [h i (Finset.mem_range.mp hi)]
    by_cases h2 : i = k
    · subst h2
      by_cases h1 : inpTgt inp i = v <;> simp [h1]
    · by_cases h1 : inpTgt inp i = v <;> simp [h1, h2]
  rw [inSum, inSum, Finset.sum_congr rfl hsplit, Finset.sum_add_distrib]
  congr 1
  rw [Finset.sum_ite_eq' (Finset.range inp.length) k
    (fun i => if inpTgt inp i = v then c else 0)]
  simp [Finset.mem_range.mpr hk]

theorem outSum_change {inp : List (Char × Char × Int)} {f f' : Nat → Int}
    {k : Nat} {c : Int} (hk : k < inp.length)
    (h : ∀ i, i < inp.length → f' i = f i + (if i = k then c else 0))
    (v : Char) :
    outSum inp f' v = outSum inp f v + (if inpSrc inp k = v then c else 0) := by
  have hsplit : ∀ i ∈ Finset.range inp.length,
      (if inpSrc inp i = v then f' i else 0) =
      (if inpSrc inp i = v then f i else 0) +
        (if i = k then (if inpSrc inp i = v then c else 0) else 0) := by
    intro i hi
    rw [h i (Finset.mem_range.mp hi)]
    by_cases h2 : i = k
    · subst h2
      by_cases h1 : inpSrc inp i = v <;> simp [h1]
    · by_cases h1 : inpSrc inp i = v <;> simp [h1, h2]
  rw [outSum, outSum, Finset.sum_congr rfl hsplit, Finset.sum_add_distrib]
  congr 1
  rw [Finset.sum_ite_eq' (Finset.range inp.length) k
    (fun i => if inpSrc inp i = v then c else 0)]
  simp [Finset.mem_range.mpr hk]

/-- An arena edge together with the input edge whose flow it controls:
either the edge is an original input edge (the pair being auto-generated),
or it is a reverse edge whose pair is the original. -/
def StepSide (inp : List (Char × Char × Int)) (g : Graph) (m : Nat) : Prop :=
  Paired g m ∧
  ((m < inp.length ∧ inpSrc inp m = (g.edge m).source ∧
      inpTgt inp m = (g.edge m).target ∧ inp.length ≤ pairIdx g m) ∨
   (inp.length ≤ m ∧ pairIdx g m < inp.length ∧
      inpSrc inp (pairIdx g m) = (g.edge m).target ∧
      inpTgt inp (pairIdx g m) = (g.edge m).source))

theorem ite_neg_flip {c : Prop} [Decidable c] (b : Int) :
    (if c then -b else 0) = -(if c then b else 0) := by
  split <;> ring

theorem changeFlowStep_netQ {inp : List (Char × Char × Int)} {g : Graph}
    {b : Int} {m : Nat} (hss : StepSide inp g m) (v : Char) :
    netQ inp (changeFlowStep g b m) v =
      netQ inp g v + (if (g.edge m).target = v then b else 0) -
        (if (g.edge m).source = v then b else 0) := by
  obtain ⟨hpair, hcase⟩ := hss
  rcases hcase with ⟨hmN, hsrc, htgt, hpN⟩ | ⟨hmN, hpN, hsrc, htgt⟩
  · have hflow : ∀ i, i < inp.length → flowOf (changeFlowStep g b m) i =
        flowOf g i + (if i = m then b else 0) := by
      intro i hi
      have h2 := (changeFlowStep_edge g b m hpair i).1
      rw [flowOf, flowOf, h2]
      have hne : ¬ i = pairIdx g m := by omega
      simp [hne]
    rw [netQ, netQ, inSum_change hmN hflow v, outSum_change hmN hflow v,
      hsrc, htgt]
    ring
  · have hflow : ∀ i, i < inp.length → flowOf (changeFlowStep g b m) i =
        flowOf g i + (if i = pairIdx g m then -b else 0) := by
      intro i hi
      have h2 := (changeFlowStep_edge g b m hpair i).1
      rw [flowOf, flowOf, h2]
      have hne : ¬ i = m := by omega
      have hpm : ¬ pairIdx g m = m := hpair.2.2.2.1
      by_cases hpi : i = pairIdx g m <;> simp [hne, hpi, hpm] <;> ring
    rw [netQ, netQ, inSum_change hpN hflow v, outSum_change hpN hflow v,
      hsrc, htgt, ite_neg_flip, ite_neg_flip]
    ring

theorem chainFrom_congr {g g' : Graph}
    (hf : ∀ k, (g'.edge k).source = (g.edge k).source ∧
      (g'.edge k).target = (g.edge k).target) :
    ∀ (q : List Nat) (x y : Char), chainFrom g' x y q = chainFrom g x y q := by
  intro q
  induction q with
  | nil => intro x y; rfl
  | cons i rest ih =>
      intro x y
      cases rest with
      | nil => simp [chainFrom, (hf i).1, (hf i).2]
      | cons j rest' =>
          show (decide ((g'.edge i).source = x) && _) = _
          rw [(hf i).1, (hf i).2, ih]
          rfl

theorem stepSide_changeFlowStep {inp : List (Char × Char × Int)}
    {g : Graph} {b : Int} {m m' : Nat} (h : StepSide inp g m') :
    StepSide inp (changeFlowStep g b m) m' := by
  obtain ⟨hpair, hcase⟩ := h
  obtain ⟨_, _, _, _, hfields⟩ := changeFlowStep_struct g b m
  refine ⟨paired_changeFlowStep g b m hpair, ?_⟩
  rw [pairIdx_changeFlowStep, (hfields m').1, (hfields m').2.1]
  exact hcase

theorem changeFlow_netQ {inp : List (Char × Char × Int)} {b : Int} :
    ∀ (p : List Nat) (g : Graph) (x y : Char),
      chainFrom g x y p = true → (∀ m ∈ p, StepSide inp g m) → ∀ v,
      netQ inp (changeFlow g p b) v =
        netQ inp g v + (if y = v then b else 0) - (if x = v then b else 0) := by
  intro p
  induction p with
  | nil => intro g x y hchain; simp [chainFrom] at hchain
  | cons i rest ih =>
      intro g x y hchain hside v
      have hsrci : (g.edge i).source = x := chainFrom_source hchain
      have hstep := changeFlowStep_netQ (hside i (by simp)) (b := b) v
      cases rest with
      | nil =>
          simp only [chainFrom, Bool.and_eq_true, decide_eq_true_eq] at hchain
          have hfold : changeFlow g [i] b = changeFlowStep g b i := rfl
          rw [hfold, hstep, hsrci, hchain.2]
      | cons j rest' =>
          have hfold : changeFlow g (i :: j :: rest') b =
              changeFlow (changeFlowStep g b i) (j :: rest') b := rfl
          obtain ⟨_, _, _, _, hfields⟩ := changeFlowStep_struct g b i
          have hchain' : chainFrom (changeFlowStep g b i)
              (g.edge i).target y (j :: rest') = true := by
            rw [chainFrom_congr (fun k => ⟨(hfields k).1, (hfields k).2.1⟩)]
            exact chainFrom_tail (by simp) hchain
          have hside' : ∀ m ∈ j :: rest',
              StepSide inp (changeFlowStep g b i) m :=
            fun m hm => stepSide_changeFlowStep (hside m (by simp [hm]))
          rw [hfold, ih (changeFlowStep g b i) (g.edge i).target y
            hchain' hside' v, hstep, hsrci]
          ring

/-! ### Preservation of the sign/conservation invariant -/

theorem dinvP_stepSide {inp : List (Char × Char × Int)} {sN tN : Char}
    {s : DState} (hP : DInvP inp sN tN s) :
    ∀ m, m < 2 * inp.length → StepSide inp s.g m := by
  intro m hm
  refine ⟨dinvP_paired hP m hm, ?_⟩
  by_cases hN : m < inp.length
  · obtain ⟨o1, o2, _, _⟩ := hP.orig m hN
    obtain ⟨_, p2, _, _, _, _, _, _, _⟩ := hP.pair m hN
    exact Or.inl ⟨hN, o1.symm, o2.symm, p2⟩
  · obtain ⟨r1, r2, r3⟩ := hP.rev m (by omega) hm
    have hpe := dinvP_pair_endpoints hP m hm
    obtain ⟨o1, o2, _, _⟩ := hP.orig (pairIdx s.g m) r1
    exact Or.inr ⟨by omega, r1, o1.symm.trans hpe.1, o2.symm.trans hpe.2⟩

theorem path_pair_not_mem {inp : List (Char × Char × Int)} {sN tN : Char}
    {s : DState} (hP : DInvP inp sN tN s) {p : List Nat} {x : Char}
    (hchain : chainFrom s.g x s.g.target p = true)
    (hvalid : ∀ i ∈ p, i < s.g.edges.length ∧ 0 < (s.g.edge i).capacity)
    (hnd : (x :: edgeTargets s.g p).Nodup) :
    ∀ m ∈ p, pairIdx s.g m ∉ p := by
  intro m hm hmem
  have hm2 : m < 2 * inp.length := by
    have := (hvalid m hm).1
    have := hP.len_eq
    omega
  exact chain_no_antiparallel p x hchain hnd m hm (pairIdx s.g m) hmem
    (dinvP_pair_endpoints hP m hm2).1 (dinvP_pair_endpoints hP m hm2).2

theorem bottleneck_pos {g : Graph} {p : List Nat} (hne : p ≠ [])
    (hvalid : ∀ i ∈ p, 0 < (g.edge i).capacity) :
    1 ≤ findMinCapacity g p :=
  le_findMinCapacity g p 1 hne (fun i hi => hvalid i hi)

theorem chain_ne_nil {g : Graph} {x y : Char} {p : List Nat}
    (h : chainFrom g x y p = true) : p ≠ [] := by
  intro hEq
  subst hEq
  simp [chainFrom] at h

theorem dinvF_step {inp : List (Char × Char × Int)} {sN tN : Char}
    {pf : Nat} {s : DState} {fl : Bool} {s' : DState}
    (hP : DInvP inp sN tN s) (hF : DInvF inp sN tN s) (hst : sN ≠ tN)
    (h : driverStep pf s = some (fl, s')) : DInvF inp sN tN s' := by
  have hsub : s.st ⊆ {s.g.source} := by rw [hP.src_eq]; exact hP.st_sub
  unfold driverStep at h
  match hfp : findPath s.g pf s.st with
  | none => rw [hfp] at h; exact Option.noConfusion h
  | some (false, p0, st') =>
      rw [hfp] at h
      simp only [Option.some.injEq, Prod.mk.injEq] at h
      obtain ⟨_, hs'⟩ := h
      subst hs'
      exact ⟨hF.caps, hF.cons, hF.val⟩
  | some (true, p, st') =>
      rw [hfp] at h
      simp only [Option.some.injEq, Prod.mk.injEq] at h
      obtain ⟨_, hs'⟩ := h
      subst hs'
      obtain ⟨⟨hchain, hvalid, hnd⟩, _⟩ := findPath_found s.g pf hsub hfp
      have hlen := hP.len_eq
      have hvalid2 : ∀ m ∈ p, m < 2 * inp.length :=
        fun m hm => by have := (hvalid m hm).1; omega
      have hpairedAll : ∀ m ∈ p, Paired s.g m :=
        fun m hm => dinvP_paired hP m (hvalid2 m hm)
      have hinvolAll : ∀ m ∈ p, pairIdx s.g (pairIdx s.g m) = m :=
        fun m hm => (dinvP_invol hP m (hvalid2 m hm)).1
      set b := findMinCapacity s.g p with hb
      have hbpos : 1 ≤ b :=
        bottleneck_pos (chain_ne_nil hchain) (fun i hi => (hvalid i hi).2)
      have hCE := fun k => changeFlow_edge s.g b p k hpairedAll
      have hidnd : p.Nodup := chain_ids_nodup p s.g.source hchain hnd
      have hantip : ∀ m ∈ p, pairIdx s.g m ∉ p :=
        path_pair_not_mem hP hchain hvalid hnd
      constructor
      case caps =>
          intro k hk
          have hcap := (hCE k).2
          have hinvk := (dinvP_invol hP k hk).1
          have hcnt : ((p.map (pairIdx s.g)).count k : Int) =
              (p.count (pairIdx s.g k) : Int) := by
            rw [count_map_pairIdx s.g k hinvk p hinvolAll]
          rw [hcap, hcnt]
          by_cases hmem : k ∈ p
          · have h1 : p.count k = 1 := List.count_eq_one_of_mem hidnd hmem
            have h0 : p.count (pairIdx s.g k) = 0 :=
              List.count_eq_zero_of_not_mem (hantip k hmem)
            have hle : b ≤ (s.g.edge k).capacity := findMinCapacity_le s.g p k hmem
            rw [h1, h0]
            simp
            linarith
          · have h0 : p.count k = 0 := List.count_eq_zero_of_not_mem hmem
            have hc := hF.caps k hk
            have hnn : (0 : Int) ≤ b * (p.count (pairIdx s.g k) : Int) :=
              mul_nonneg (by linarith) (Int.natCast_nonneg _)
            rw [h0]
            simp
            linarith
      case cons =>
          intro v hv1 hv2
          have hsides : ∀ m ∈ p, StepSide inp s.g m :=
            fun m hm => dinvP_stepSide hP m (hvalid2 m hm)
          have hnet := changeFlow_netQ (b := b) p s.g s.g.source s.g.target hchain hsides v
          rw [hP.src_eq, hP.tgt_eq] at hnet
          have hz1 : (if tN = v then b else 0) = 0 := by
            rw [if_neg (fun hq => hv2 hq.symm)]
          have hz2 : (if sN = v then b else 0) = 0 := by
            rw [if_neg (fun hq => hv1 hq.symm)]
          rw [hz1, hz2] at hnet
          have hcons := hF.cons v hv1 hv2
          have : netQ inp s.g v = 0 := by rw [netQ, hcons]; ring
          rw [this] at hnet
          have hnet' : netQ inp (changeFlow s.g p b) v = 0 := by
            rw [hnet]; ring
          rw [netQ] at hnet'
          show inSum inp (flowOf (changeFlow s.g p b)) v =
            outSum inp (flowOf (changeFlow s.g p b)) v
          linarith
      case val =>
          have hsides : ∀ m ∈ p, StepSide inp s.g m :=
            fun m hm => dinvP_stepSide hP m (hvalid2 m hm)
          have hnet := changeFlow_netQ (b := b) p s.g s.g.source s.g.target
            hchain hsides sN
          rw [hP.src_eq, hP.tgt_eq] at hnet
          rw [if_neg (fun hq => hst hq.symm), if_pos rfl] at hnet
          have hval := hF.val
          rw [flowValue] at hval ⊢
          rw [netQ, netQ] at hnet
          show outSum inp (flowOf (changeFlow s.g p b)) sN -
            inSum inp (flowOf (changeFlow s.g p b)) sN = s.acc + b
          linarith

/-! ### Invariants along the whole driver loop -/

theorem driverIter_inv {inp : List (Char × Char × Int)} {sN tN : Char}
    {pf : Nat} :
    ∀ (k : Nat) (s : DState) {s' : DState}, DInvP inp sN tN s →
      driverIter pf k s = some s' →
      DInvP inp sN tN s' ∧
        (DInvF inp sN tN s → sN ≠ tN → DInvF inp sN tN s') := by
  intro k
  induction k with
  | zero =>
      intro s s' hP h
      simp only [driverIter, Option.some.injEq] at h
      subst h
      exact ⟨hP, fun hF _ => hF⟩
  | succ k ih =>
      intro s s' hP h
      simp only [driverIter] at h
      match hstep : driverStep pf s with
      | none => rw [hstep] at h; exact Option.noConfusion h
      | some (false, s1) =>
          rw [hstep] at h
          simp only [Option.some.injEq] at h
          subst h
          exact ⟨hP, fun hF _ => hF⟩
      | some (true, s1) =>
          rw [hstep] at h
          obtain ⟨hP', hF'⟩ := ih s1 (dinvP_step hP hstep) h
          exact ⟨hP', fun hF hst => hF' (dinvF_step hP hF hst hstep) hst⟩

theorem findMaxFlowAux_spec {inp : List (Char × Char × Int)} {sN tN : Char}
    {pf : Nat} :
    ∀ (k : Nat) (s : DState) {s' : DState}, DInvP inp sN tN s →
      findMaxFlowAux pf k s = some s' →
      DInvP inp sN tN s' ∧
        (DInvF inp sN tN s → sN ≠ tN → DInvF inp sN tN s') ∧
        (∀ q, ¬ isAugPath s'.g q) := by
  intro k
  induction k with
  | zero => intro s s' _ h; simp [findMaxFlowAux] at h
  | succ k ih =>
      intro s s' hP h
      simp only [findMaxFlowAux] at h
      match hstep : driverStep pf s with
      | none => rw [hstep] at h; exact Option.noConfusion h
      | some (false, s1) =>
          rw [hstep] at h
          simp only [Option.some.injEq] at h
          subst h
          have hP' := dinvP_step hP hstep
          refine ⟨hP', fun hF hst => dinvF_step hP hF hst hstep, ?_⟩
          have hsub : s.st ⊆ {s.g.source} := by
            rw [hP.src_eq]; exact hP.st_sub
          unfold driverStep at hstep
          match hfp : findPath s.g pf s.st with
          | none => rw [hfp] at hstep; exact Option.noConfusion hstep
          | some (true, p0, st0) =>
              rw [hfp] at hstep
              simp at hstep
          | some (false, p0, st0) =>
              rw [hfp] at hstep
              simp only [Option.some.injEq, Prod.mk.injEq] at hstep
              obtain ⟨_, hs1⟩ := hstep
              have hgs : s1.g = s.g := by rw [← hs1]
              rw [hgs]
              exact (findPath_not_found s.g pf hsub hfp).1
      | some (true, s1) =>
          rw [hstep] at h
          obtain ⟨hP', hF', hnoaug⟩ := ih s1 (dinvP_step hP hstep) h
          exact ⟨hP', fun hF hst => hF' (dinvF_step hP hF hst hstep) hst,
            hnoaug⟩

/-! ### Truncating a simple chain at an intermediate vertex -/

theorem chain_take {g : Graph} {y : Char} (P : Nat → Prop) :
    ∀ (q : List Nat) (x w : Char), chainFrom g x y q = true →
      (x :: edgeTargets g q).Nodup → w ∈ edgeTargets g q →
      (∀ i ∈ q, P i) →
      ∃ q', chainFrom g x w q' = true ∧
        (x :: edgeTargets g q').Nodup ∧ (∀ i ∈ q', P i) ∧
        (∀ c ∈ edgeTargets g q', c ∈ edgeTargets g q) := by
  intro q
  induction q with
  | nil => intro x w _ _ hw; simp [edgeTargets] at hw
  | cons i rest ih =>
      intro x w hchain hnd hw hP
      have hsrci : (g.edge i).source = x := chainFrom_source hchain
      rcases List.mem_cons.mp hw with rfl | hw'
      · refine ⟨[i], ?_, ?_, ?_, ?_⟩
        · simp [chainFrom, hsrci]
        · have hx : x ∉ edgeTargets g (i :: rest) := (List.nodup_cons.mp hnd).1
          refine List.nodup_cons.mpr ⟨?_, by simp [edgeTargets]⟩
          intro hmem
          rcases List.mem_singleton.mp (by simpa [edgeTargets] using hmem)
            with hEq
          exact hx (hEq ▸ List.mem_cons_self _ _)
        · intro j hj
          rcases List.mem_singleton.mp hj with rfl
          exact hP j (by simp)
        · intro c hc
          simpa [edgeTargets] using
            Or.inl (List.mem_singleton.mp (by simpa [edgeTargets] using hc))
      · have hrest : rest ≠ [] := by
          intro hEq
          rw [hEq] at hw'
          simp [edgeTargets] at hw'
        have hchain' : chainFrom g (g.edge i).target y rest = true :=
          chainFrom_tail hrest hchain
        have hnd' : ((g.edge i).target :: edgeTargets g rest).Nodup :=
          (List.nodup_cons.mp hnd).2
        obtain ⟨q'', hc'', hnd'', hP'', hsub''⟩ :=
          ih (g.edge i).target w hchain' hnd' hw'
            (fun j hj => hP j (by simp [hj]))
        have hq''ne : q'' ≠ [] := chain_ne_nil hc''
        refine ⟨i :: q'', ?_, ?_, ?_, ?_⟩
        · rw [chainFrom_cons hq''ne]
          simp [hsrci, hc'']
        · have hx : x ∉ edgeTargets g (i :: rest) := (List.nodup_cons.mp hnd).1
          refine List.nodup_cons.mpr ⟨?_, hnd''⟩
          intro hmem
          simp only [edgeTargets, List.map_cons, List.mem_cons] at hmem
          rcases hmem with hEq | hmem'
          · exact hx (hEq ▸ List.mem_cons_self _ _)
          · refine hx ?_
            have := hsub'' x hmem'
            simp only [edgeTargets, List.map_cons, List.mem_cons]
            exact Or.inr (by simpa [edgeTargets] using this)
        · intro j hj
          rcases List.mem_cons.mp hj with rfl | hj'
          · exact hP j (by simp)
          · exact hP'' j hj'
        · intro c hc
          simp only [edgeTargets, List.map_cons, List.mem_cons] at hc ⊢
          rcases hc with hEq | hc'
          · exact Or.inl hEq
          · exact Or.inr (by simpa [edgeTargets] using hsub'' c hc')

/-! ### Cut bound: value of any conserved flow across a vertex cut -/

theorem flowValue_cut (inp : List (Char × Char × Int)) (sN tN : Char)
    (f : Nat → Int) (RF : Finset Char)
    (hcons : ∀ v, v ≠ sN → v ≠ tN → inSum inp f v = outSum inp f v)
    (hsN : sN ∈ RF) (htN : tN ∉ RF) :
    flowValue inp sN f =
      ∑ i ∈ Finset.range inp.length,
        ((if inpSrc inp i ∈ RF then f i else 0) -
         (if inpTgt inp i ∈ RF then f i else 0)) := by
  have h1 : ∑ v ∈ RF, (outSum inp f v - inSum inp f v) =
      outSum inp f sN - inSum inp f sN := by
    refine Finset.sum_eq_single sN ?_ ?_
    · intro b hb hbne
      rw [hcons b hbne (fun hEq => htN (hEq ▸ hb))]
      ring
    · intro hna
      exact absurd hsN hna
  have h2 : ∑ v ∈ RF, outSum inp f v =
      ∑ i ∈ Finset.range inp.length, if inpSrc inp i ∈ RF then f i else 0 := by
    simp only [outSum]
    rw [Finset.sum_comm]
    refine Finset.sum_congr rfl ?_
    intro i _
    exact Finset.sum_ite_eq RF (inpSrc inp i) (fun _ => f i)
  have h3 : ∑ v ∈ RF, inSum inp f v =
      ∑ i ∈ Finset.range inp.length, if inpTgt inp i ∈ RF then f i else 0 := by
    simp only [inSum]
    rw [Finset.sum_comm]
    refine Finset.sum_congr rfl ?_
    intro i _
    exact Finset.sum_ite_eq RF (inpTgt inp i) (fun _ => f i)
  rw [flowValue, ← h1, Finset.sum_sub_distrib, h2, h3,
    Finset.sum_sub_distrib]

theorem flowValue_le_cutCap (inp : List (Char × Char × Int)) (sN tN : Char)
    (f : Nat → Int) (RF : Finset Char)
    (hcons : ∀ v, v ≠ sN → v ≠ tN → inSum inp f v = outSum inp f v)
    (hsN : sN ∈ RF) (htN : tN ∉ RF)
    (hbounds : ∀ i, i < inp.length → 0 ≤ f i ∧ f i ≤ inpCap inp i) :
    flowValue inp sN f ≤
      ∑ i ∈ Finset.range inp.length,
        (if inpSrc inp i ∈ RF ∧ inpTgt inp i ∉ RF then inpCap inp i
         else 0) := by
  rw [flowValue_cut inp sN tN f RF hcons hsN htN]
  refine Finset.sum_le_sum ?_
  intro i hi
  obtain ⟨hb0, hb1⟩ := hbounds i (Finset.mem_range.mp hi)
  by_cases h1 : inpSrc inp i ∈ RF <;> by_cases h2 : inpTgt inp i ∈ RF <;>
    simp [h1, h2] <;> linarith

theorem flowValue_eq_cutCap (inp : List (Char × Char × Int)) (sN tN : Char)
    (f : Nat → Int) (RF : Finset Char)
    (hcons : ∀ v, v ≠ sN → v ≠ tN → inSum inp f v = outSum inp f v)
    (hsN : sN ∈ RF) (htN : tN ∉ RF)
    (hsat : ∀ i, i < inp.length → inpSrc inp i ∈ RF → inpTgt inp i ∉ RF →
      f i = inpCap inp i)
    (hzero : ∀ i, i < inp.length → inpSrc inp i ∉ RF → inpTgt inp i ∈ RF →
      f i = 0) :
    flowValue inp sN f =
      ∑ i ∈ Finset.range inp.length,
        (if inpSrc inp i ∈ RF ∧ inpTgt inp i ∉ RF then inpCap inp i
         else 0) := by
  rw [flowValue_cut inp sN tN f RF hcons hsN htN]
  refine Finset.sum_congr rfl ?_
  intro i hi
  have hiN := Finset.mem_range.mp hi
  by_cases h1 : inpSrc inp i ∈ RF <;> by_cases h2 : inpTgt inp i ∈ RF
  · simp [h1, h2]
  · rw [hsat i hiN h1 h2]
    simp [h1, h2]
  · rw [hzero i hiN h1 h2]
    simp [h1, h2]
  · simp [h1, h2]

/-! ### Residual reachability and optimality at termination -/

/-- The vertex `v` is reachable from `x` along a simple chain of edges with
positive residual capacity (or is `x` itself). -/
def Reach (g : Graph) (x v : Char) : Prop :=
  v = x ∨ ∃ q, chainFrom g x v q = true ∧
    (∀ i ∈ q, i < g.edges.length ∧ 0 < (g.edge i).capacity) ∧
    (x :: edgeTargets g q).Nodup

theorem reach_closed {g : Graph} {x v : Char} (hv : Reach g x v)
    {m : Nat} (hm : m < g.edges.length) (hsrc : (g.edge m).source = v)
    (hcap : 0 < (g.edge m).capacity) : Reach g x (g.edge m).target := by
  by_cases htx : (g.edge m).target = x
  · exact Or.inl htx
  rcases hv with rfl | ⟨q, hchain, hvalid, hnd⟩
  · right
    refine ⟨[m], by simp [chainFrom, hsrc], ?_, ?_⟩
    · intro j hj
      rcases List.mem_singleton.mp hj with rfl
      exact ⟨hm, hcap⟩
    · simp [edgeTargets]
      exact fun hEq => htx hEq.symm
  · by_cases hmem : (g.edge m).target ∈ edgeTargets g q
    · obtain ⟨q', hc', hnd', hP', _⟩ :=
        chain_take (fun i => i < g.edges.length ∧ 0 < (g.edge i).capacity)
          q x (g.edge m).target hchain hnd hmem hvalid
      exact Or.inr ⟨q', hc', hP', hnd'⟩
    · right
      refine ⟨q ++ [m], chainFrom_append q hchain hsrc, ?_, ?_⟩
      · intro j hj
        rcases List.mem_append.mp hj with hj' | hj'
        · exact hvalid j hj'
        · rcases List.mem_singleton.mp hj' with rfl
          exact ⟨hm, hcap⟩
      · have hx : x ∉ edgeTargets g q := (List.nodup_cons.mp hnd).1
        have hndq : (edgeTargets g q).Nodup := (List.nodup_cons.mp hnd).2
        rw [edgeTargets, List.map_append]
        refine List.nodup_cons.mpr ⟨?_, ?_⟩
        · intro hmem2
          rcases List.mem_append.mp hmem2 with h2 | h2
          · exact hx (by simpa [edgeTargets] using h2)
          · simp only [List.map_cons, List.map_nil,
              List.mem_singleton] at h2
            exact htx h2.symm
        · rw [List.nodup_append]
          refine ⟨by simpa [edgeTargets] using hndq, by simp, ?_⟩
          intro c hc1 hc2
          simp only [List.map_cons, List.map_nil,
            List.mem_singleton] at hc2
          rw [hc2] at hc1
          exact hmem (by simpa [edgeTargets] using hc1)

theorem maxflow_optimal {inp : List (Char × Char × Int)} {sN tN : Char}
    {s : DState} (hsntn : sN ≠ tN) (hsNv : sN ∈ vertsOf inp)
    (hP : DInvP inp sN tN s) (hF : DInvF inp sN tN s)
    (hnoaug : ∀ q, ¬ isAugPath s.g q) :
    IsMaxFlowValue inp sN tN s.acc := by
  classical
  have hlen := hP.len_eq
  -- the final flow assignment is feasible
  have hfeas : Feasible inp sN tN (flowOf s.g) := by
    refine ⟨?_, hF.cons⟩
    intro i hi
    obtain ⟨_, _, _, o4⟩ := hP.orig i hi
    obtain ⟨_, _, p3, _, _, _, _, _, p9⟩ := hP.pair i hi
    have hc1 : 0 ≤ (s.g.edge i).capacity := hF.caps i (by omega)
    have hc2 : 0 ≤ (s.g.edge (pairIdx s.g i)).capacity := hF.caps _ p3
    constructor
    · rw [flowOf]; linarith
    · rw [flowOf]; linarith
  -- the reachability cut
  set RF : Finset Char :=
    (vertsOf inp).toFinset.filter (fun v => Reach s.g sN v) with hRF
  have hmemRF : ∀ v, v ∈ RF ↔ v ∈ vertsOf inp ∧ Reach s.g sN v := by
    intro v
    rw [hRF, Finset.mem_filter, List.mem_toFinset]
  have hsNRF : sN ∈ RF := (hmemRF sN).mpr ⟨hsNv, Or.inl rfl⟩
  have htNRF : tN ∉ RF := by
    intro hmem
    obtain ⟨_, hreach⟩ := (hmemRF tN).mp hmem
    rcases hreach with hEq | ⟨q, hchain, hvalid, hnd⟩
    · exact hsntn hEq.symm
    · refine hnoaug q ⟨?_, hvalid, ?_⟩
      · rw [hP.src_eq, hP.tgt_eq]; exact hchain
      · rw [hP.src_eq]; exact hnd
  -- edges crossing out of the cut are saturated
  have hsat : ∀ i, i < inp.length → inpSrc inp i ∈ RF →
      inpTgt inp i ∉ RF → flowOf s.g i = inpCap inp i := by
    intro i hi h1 h2
    obtain ⟨o1, o2, _, o4⟩ := hP.orig i hi
    by_cases hcap : 0 < (s.g.edge i).capacity
    · exfalso
      obtain ⟨hv, hreach⟩ := (hmemRF _).mp h1
      have := reach_closed hreach (m := i) (by omega) (by rw [o1]) hcap
      rw [o2] at this
      exact h2 ((hmemRF _).mpr ⟨(inp_comp_mem_verts hi).2, this⟩)
    · have hc0 : (s.g.edge i).capacity = 0 := by
        have := hF.caps i (by omega)
        omega
      rw [flowOf]
      linarith
  -- edges crossing into the cut carry no flow
  have hzero : ∀ i, i < inp.length → inpSrc inp i ∉ RF →
      inpTgt inp i ∈ RF → flowOf s.g i = 0 := by
    intro i hi h1 h2
    obtain ⟨o1, o2, _, o4⟩ := hP.orig i hi
    obtain ⟨_, _, p3, _, p5, p6, _, _, p9⟩ := hP.pair i hi
    by_cases hcap : 0 < (s.g.edge (pairIdx s.g i)).capacity
    · exfalso
      obtain ⟨hv, hreach⟩ := (hmemRF _).mp h2
      have := reach_closed hreach (m := pairIdx s.g i) (by omega)
        (by rw [p5]) hcap
      rw [p6] at this
      exact h1 ((hmemRF _).mpr ⟨(inp_comp_mem_verts hi).1, this⟩)
    · have hc0 : (s.g.edge (pairIdx s.g i)).capacity = 0 := by
        have := hF.caps (pairIdx s.g i) p3
        omega
      rw [flowOf]
      linarith
  refine ⟨⟨flowOf s.g, hfeas, hF.val⟩, ?_⟩
  intro f hf
  have hle := flowValue_le_cutCap inp sN tN f RF hf.2 hsNRF htNRF hf.1
  have heq := flowValue_eq_cutCap inp sN tN (flowOf s.g) RF hF.cons
    hsNRF htNRF hsat hzero
  rw [← hF.val, heq]
  exact hle

/-! ### Termination measure: residual capacity out of the source -/

theorem chain_sources_mem {g : Graph} {y : Char} :
    ∀ (q : List Nat) (x : Char), chainFrom g x y q = true →
      ∀ m ∈ q, (g.edge m).source ∈ x :: edgeTargets g q := by
  intro q
  induction q with
  | nil => intro x _ m hm; simp at hm
  | cons i rest ih =>
      intro x hchain m hm
      have hsrci : (g.edge i).source = x := chainFrom_source hchain
      rcases List.mem_cons.mp hm with rfl | hm'
      · rw [hsrci]; exact List.mem_cons_self _ _
      · have hrest : rest ≠ [] := by
          intro hEq; rw [hEq] at hm'; simp at hm'
        have := ih (g.edge i).target (chainFrom_tail hrest hchain) m hm'
        simp only [edgeTargets, List.map_cons, List.mem_cons] at this ⊢
        tauto

theorem chain_src_sum_one {g : Graph} {y : Char} :
    ∀ (q : List Nat) (x : Char), chainFrom g x y q = true →
      (∀ c ∈ edgeTargets g q, c ≠ x) →
      (q.map (fun m => if (g.edge m).source = x then (1 : Int) else 0)).sum
        = 1 := by
  intro q
  induction q with
  | nil => intro x h; simp [chainFrom] at h
  | cons i rest ih =>
      intro x hchain hne
      have hsrci : (g.edge i).source = x := chainFrom_source hchain
      cases rest with
      | nil => simp [hsrci]
      | cons j rest' =>
          have hchain' := chainFrom_tail (by simp) hchain
          have hzero : ((j :: rest').map
              (fun m => if (g.edge m).source = x then (1 : Int) else 0)).sum
              = 0 := by
            refine List.sum_eq_zero ?_
            intro z hz
            rcases List.mem_map.mp hz with ⟨m, hm, hmz⟩
            have hsrcm := chain_sources_mem (j :: rest') (g.edge i).target
              hchain' m hm
            have hmem : (g.edge m).source ∈ edgeTargets g (i :: j :: rest') := by
              simp only [edgeTargets, List.map_cons, List.mem_cons] at hsrcm ⊢
              tauto
            rw [← hmz, if_neg (hne _ hmem)]
          rw [List.map_cons, List.sum_cons, hzero, hsrci]
          simp

theorem sum_count_indicator (P : Nat → Prop) [DecidablePred P] (L : Nat) :
    ∀ p : List Nat, (∀ m ∈ p, m < L) →
      (∑ k ∈ Finset.range L, if P k then (p.count k : Int) else 0) =
        (p.map (fun m => if P m then (1 : Int) else 0)).sum := by
  intro p
  induction p with
  | nil => simp
  | cons m rest ih =>
      intro hp
      have hmL : m < L := hp m (by simp)
      have hsplit : ∀ k ∈ Finset.range L,
          (if P k then (((m :: rest).count k : Nat) : Int) else 0) =
          (if P k then ((rest.count k : Nat) : Int) else 0) +
            (if k = m then (if P k then (1 : Int) else 0) else 0) := by
        intro k _
        rw [List.count_cons]
        by_cases h1 : P k <;> by_cases h2 : m = k
        · subst h2; simp [h1]
        · have : ¬ k = m := fun hc => h2 hc.symm
          simp [h1, h2, this]
        · subst h2; simp [h1]
        · have : ¬ k = m := fun hc => h2 hc.symm
          simp [h1, h2, this]
      rw [Finset.sum_congr rfl hsplit, Finset.sum_add_distrib,
        ih (fun m' hm' => hp m' (by simp [hm'])),
        Finset.sum_ite_eq' (Finset.range L) m
          (fun k => if P k then (1 : Int) else 0),
        if_pos (Finset.mem_range.mpr hmL)]
      simp only [List.map_cons, List.sum_cons]
      ring

theorem srcCapSum_nonneg {inp : List (Char × Char × Int)} {sN tN : Char}
    {s : DState} (hP : DInvP inp sN tN s) (hF : DInvF inp sN tN s) :
    0 ≤ srcCapSum s.g := by
  refine Finset.sum_nonneg ?_
  intro i hi
  have hcap := hF.caps i (by
    have := Finset.mem_range.mp hi
    have := hP.len_eq
    omega)
  split
  · exact hcap
  · exact le_refl 0

theorem srcCapSum_step {inp : List (Char × Char × Int)} {sN tN : Char}
    {pf : Nat} {s s' : DState} (hP : DInvP inp sN tN s)
    (hstep : driverStep pf s = some (true, s')) :
    ∃ b : Int, 1 ≤ b ∧ srcCapSum s'.g = srcCapSum s.g - b := by
  have hsub : s.st ⊆ {s.g.source} := by rw [hP.src_eq]; exact hP.st_sub
  unfold driverStep at hstep
  match hfp : findPath s.g pf s.st with
  | none => rw [hfp] at hstep; exact Option.noConfusion hstep
  | some (false, p0, st0) => rw [hfp] at hstep; simp at hstep
  | some (true, p, st0) =>
      rw [hfp] at hstep
      simp only [Option.some.injEq, Prod.mk.injEq] at hstep
      obtain ⟨_, hs'⟩ := hstep
      subst hs'
      obtain ⟨⟨hchain, hvalid, hnd⟩, _⟩ := findPath_found s.g pf hsub hfp
      have hlen := hP.len_eq
      have hvalid2 : ∀ m ∈ p, m < 2 * inp.length :=
        fun m hm => by have := (hvalid m hm).1; omega
      have hpairedAll : ∀ m ∈ p, Paired s.g m :=
        fun m hm => dinvP_paired hP m (hvalid2 m hm)
      set b := findMinCapacity s.g p with hb
      refine ⟨b, bottleneck_pos (chain_ne_nil hchain)
        (fun i hi => (hvalid i hi).2), ?_⟩
      obtain ⟨c1, c2, c3, c4, c5⟩ := changeFlow_struct s.g b p
      have hCE := fun k => changeFlow_edge s.g b p k hpairedAll
      -- rewrite the sum edge by edge
      have hsum : srcCapSum (changeFlow s.g p b) =
          srcCapSum s.g
          - b * (∑ k ∈ Finset.range s.g.edges.length,
              if (s.g.edge k).source = s.g.source
              then (p.count k : Int) else 0)
          + b * (∑ k ∈ Finset.range s.g.edges.length,
              if (s.g.edge k).source = s.g.source
              then (((p.map (pairIdx s.g)).count k : Nat) : Int) else 0) := by
        rw [srcCapSum, srcCapSum, c1, c2]
        rw [Finset.mul_sum, Finset.mul_sum, ← Finset.sum_sub_distrib,
          ← Finset.sum_add_distrib]
        refine Finset.sum_congr rfl ?_
        intro k _
        rw [(c5 k).1, (hCE k).2]
        by_cases h1 : (s.g.edge k).source = s.g.source <;> simp [h1] <;> ring
      have hsrcsN : s.g.source = sN := hP.src_eq
      have htgts : ∀ c ∈ edgeTargets s.g p, c ≠ s.g.source := by
        intro c hc hEq
        exact (List.nodup_cons.mp hnd).1 (hEq ▸ hc)
      have hA : (∑ k ∈ Finset.range s.g.edges.length,
          if (s.g.edge k).source = s.g.source
          then (p.count k : Int) else 0) = 1 := by
        rw [sum_count_indicator (fun k => (s.g.edge k).source = s.g.source)
          s.g.edges.length p (fun m hm => (hvalid m hm).1)]
        exact chain_src_sum_one p s.g.source hchain htgts
      have hB : (∑ k ∈ Finset.range s.g.edges.length,
          if (s.g.edge k).source = s.g.source
          then (((p.map (pairIdx s.g)).count k : Nat) : Int) else 0) = 0 := by
        rw [sum_count_indicator (fun k => (s.g.edge k).source = s.g.source)
          s.g.edges.length (p.map (pairIdx s.g)) ?_]
        · refine List.sum_eq_zero ?_
          intro z hz
          rcases List.mem_map.mp hz with ⟨mm, hmm, hmmz⟩
          rcases List.mem_map.mp hmm with ⟨m, hm, rfl⟩
          have hpe := (dinvP_pair_endpoints hP m (hvalid2 m hm)).1
          rw [← hmmz, hpe, if_neg]
          exact htgts _ (List.mem_map.mpr ⟨m, hm, rfl⟩)
        · intro mm hmm
          rcases List.mem_map.mp hmm with ⟨m, hm, rfl⟩
          have := (dinvP_invol hP m (hvalid2 m hm)).2
          omega
      rw [hsum, hA, hB]
      ring

theorem findMaxFlowAux_terminates {inp : List (Char × Char × Int)}
    {sN tN : Char} (hsntn : sN ≠ tN) {pf : Nat} :
    ∀ (k : Nat) (s : DState), DInvP inp sN tN s → DInvF inp sN tN s →
      pf = ((vertsOf inp).length + 1) * (2 * inp.length + 2) →
      (srcCapSum s.g).toNat < k →
      findMaxFlowAux pf k s ≠ none := by
  intro k
  induction k with
  | zero => intro s _ _ _ hk; omega
  | succ k ih =>
      intro s hPinv hFinv hpf hk
      have hv : ∀ i, i < s.g.edges.length →
          (s.g.edge i).target ∈ s.g.vertices := by
        intro i hi
        rw [hPinv.verts_eq]
        have := hPinv.len_eq
        exact (hPinv.ends i (by omega)).2
      have hfuel : pathFuelFor s.g = pf := by
        rw [pathFuelFor, hPinv.verts_eq, hPinv.len_eq, hpf]
      have hfp : findPath s.g pf s.st ≠ none := by
        rw [← hfuel]
        exact findPath_isSome s.g s.st hv
      simp only [findMaxFlowAux]
      match hstep : driverStep pf s with
      | none =>
          exfalso
          unfold driverStep at hstep
          match hfp2 : findPath s.g pf s.st with
          | none => exact hfp hfp2
          | some (false, p0, st0) => rw [hfp2] at hstep; simp at hstep
          | some (true, p0, st0) => rw [hfp2] at hstep; simp at hstep
      | some (false, s1) => simp
      | some (true, s1) =>
          have hP1 := dinvP_step hPinv hstep
          have hF1 := dinvF_step hPinv hFinv hsntn hstep
          obtain ⟨b, hb1, hbsum⟩ := srcCapSum_step hPinv hstep
          have hnn1 := srcCapSum_nonneg hP1 hF1
          have hnn0 := srcCapSum_nonneg hPinv hFinv
          refine ih s1 hP1 hF1 hpf ?_
          omega

/-! ### All-edge flow sums at reachable states -/

theorem dinvP_rev_facts {inp : List (Char × Char × Int)} {sN tN : Char}
    {s : DState} (hP : DInvP inp sN tN s) :
    ∀ j, inp.length ≤ j → j < 2 * inp.length →
      pairIdx s.g j < inp.length ∧
      pairIdx s.g (pairIdx s.g j) = j ∧
      (s.g.edge j).source = inpTgt inp (pairIdx s.g j) ∧
      (s.g.edge j).target = inpSrc inp (pairIdx s.g j) ∧
      (s.g.edge j).flow = -(s.g.edge (pairIdx s.g j)).flow := by
  intro j hj1 hj2
  obtain ⟨hlt, hrev1, hrev2⟩ := hP.rev j hj1 hj2
  have hinv : pairIdx s.g (pairIdx s.g j) = j := by
    rw [pairIdx, hrev2]
    rfl
  obtain ⟨q1, q2, q3, q4, q5, q6, q7, q8, q9⟩ := hP.pair (pairIdx s.g j) hlt
  rw [hinv] at q5 q6 q8
  exact ⟨hlt, hinv, q5, q6, q8⟩

theorem sum_range_double (N : Nat) (f : Nat → Int) :
    (∑ i ∈ Finset.range (2 * N), f i) =
      (∑ i ∈ Finset.range N, f i) + (∑ i ∈ Finset.Ico N (2 * N), f i) := by
  rw [Finset.range_eq_Ico,
    Finset.sum_Ico_consecutive f (Nat.zero_le _) (by omega)]

theorem rev_half_sum {inp : List (Char × Char × Int)} {sN tN : Char}
    {s : DState} (hP : DInvP inp sN tN s) (F : Char → Char → Int → Int) :
    (∑ j ∈ Finset.Ico inp.length (2 * inp.length),
        F (s.g.edge j).source (s.g.edge j).target (s.g.edge j).flow) =
      ∑ i ∈ Finset.range inp.length,
        F (inpTgt inp i) (inpSrc inp i) (-(flowOf s.g i)) := by
  refine Finset.sum_nbij' (pairIdx s.g) (pairIdx s.g) ?_ ?_ ?_ ?_ ?_
  · intro a ha
    obtain ⟨ha1, ha2⟩ := Finset.mem_Ico.mp ha
    exact Finset.mem_range.mpr (dinvP_rev_facts hP a ha1 ha2).1
  · intro b hb
    have hb' := Finset.mem_range.mp hb
    obtain ⟨_, h2, h3, _, _, _, _, _, _⟩ := hP.pair b hb'
    exact Finset.mem_Ico.mpr ⟨h2, h3⟩
  · intro a ha
    obtain ⟨ha1, ha2⟩ := Finset.mem_Ico.mp ha
    exact (dinvP_rev_facts hP a ha1 ha2).2.1
  · intro b hb
    have hb' := Finset.mem_range.mp hb
    exact (dinvP_invol hP b (by omega)).1
  · intro a ha
    obtain ⟨ha1, ha2⟩ := Finset.mem_Ico.mp ha
    obtain ⟨hlt, hinv, hsrc, htgt, hflow⟩ := dinvP_rev_facts hP a ha1 ha2
    rw [hsrc, htgt, hflow, flowOf]

theorem inFlowAll_eq {inp : List (Char × Char × Int)} {sN tN : Char}
    {s : DState} (hP : DInvP inp sN tN s) (v : Char) :
    inFlowAll s.g v =
      inSum inp (flowOf s.g) v - outSum inp (flowOf s.g) v := by
  rw [inFlowAll, hP.len_eq, sum_range_double]
  have h1 : (∑ i ∈ Finset.range inp.length,
      if (s.g.edge i).target = v then (s.g.edge i).flow else 0) =
      inSum inp (flowOf s.g) v := by
    rw [inSum]
    refine Finset.sum_congr rfl ?_
    intro i hi
    obtain ⟨_, ht, _, _⟩ := hP.orig i (Finset.mem_range.mp hi)
    rw [ht, flowOf]
  have h2 := rev_half_sum hP (fun x y f => if y = v then f else 0)
  simp only at h2
  rw [h1, h2, outSum]
  have h3 : ∀ i ∈ Finset.range inp.length,
      (if inpSrc inp i = v then -(flowOf s.g i) else 0) =
      -(if inpSrc inp i = v then flowOf s.g i else 0) := by
    intro i _
    split <;> simp
  rw [Finset.sum_congr rfl h3, Finset.sum_neg_distrib]
  ring

theorem outFlowAll_eq {inp : List (Char × Char × Int)} {sN tN : Char}
    {s : DState} (hP : DInvP inp sN tN s) (v : Char) :
    outFlowAll s.g v =
      outSum inp (flowOf s.g) v - inSum inp (flowOf s.g) v := by
  rw [outFlowAll, hP.len_eq, sum_range_double]
  have h1 : (∑ i ∈ Finset.range inp.length,
      if (s.g.edge i).source = v then (s.g.edge i).flow else 0) =
      outSum inp (flowOf s.g) v := by
    rw [outSum]
    refine Finset.sum_congr rfl ?_
    intro i hi
    obtain ⟨hs, _, _, _⟩ := hP.orig i (Finset.mem_range.mp hi)
    rw [hs, flowOf]
  have h2 := rev_half_sum hP (fun x y f => if x = v then f else 0)
  simp only at h2
  rw [h1, h2, inSum]
  have h3 : ∀ i ∈ Finset.range inp.length,
      (if inpTgt inp i = v then -(flowOf s.g i) else 0) =
      -(if inpTgt inp i = v then flowOf s.g i else 0) := by
    intro i _
    split <;> simp
  rw [Finset.sum_congr rfl h3, Finset.sum_neg_distrib]
  ring

/-! ### The asserts inside changeFlow hold at every driver call site -/

theorem changeFlowCapsOk_aux (g : Graph) (b : Int) (p : List Nat)
    (hpaired : ∀ m ∈ p, Paired g m) (hnd : p.Nodup)
    (hdisj : ∀ m ∈ p, pairIdx g m ∉ p)
    (hcap : ∀ m ∈ p, b ≤ (g.edge m).capacity) :
    ∀ (q done : List Nat), p = done ++ q →
      changeFlowCapsOk (changeFlow g done b) b q := by
  intro q
  induction q with
  | nil =>
      intro done _
      simp [changeFlowCapsOk]
  | cons m rest ih =>
      intro done hdone
      have hm : m ∈ p := by rw [hdone]; simp
      have hpaireddone : ∀ k ∈ done, Paired g k := by
        intro k hk
        exact hpaired k (by rw [hdone]; exact List.mem_append_left _ hk)
      have hcnt1 : done.count m = 0 := by
        apply List.count_eq_zero_of_not_mem
        intro hmem
        rw [hdone] at hnd
        exact (List.disjoint_of_nodup_append hnd) hmem (by simp)
      have hcnt2 : (done.map (pairIdx g)).count m = 0 := by
        apply List.count_eq_zero_of_not_mem
        intro hmem
        rcases List.mem_map.mp hmem with ⟨k, hk, hkm⟩
        have hkp : k ∈ p := by
          rw [hdone]; exact List.mem_append_left _ hk
        exact hdisj k hkp (hkm ▸ hm)
      have hcapm := (changeFlow_edge g b done m hpaireddone).2
      rw [hcnt1, hcnt2] at hcapm
      simp only [changeFlowCapsOk]
      refine ⟨?_, ?_⟩
      · rw [hcapm]
        simpa using hcap m hm
      · have hstep : changeFlow g (done ++ [m]) b =
            changeFlowStep (changeFlow g done b) b m := by
          simp [changeFlow, List.foldl_append]
        rw [← hstep]
        exact ih (done ++ [m]) (by rw [hdone]; simp)

theorem driver_asserts_hold {inp : List (Char × Char × Int)} {sN tN : Char}
    {pf : Nat} {s : DState} (hP : DInvP inp sN tN s)
    {p : List Nat} {st' : Finset Char}
    (hfp : findPath s.g pf s.st = some (true, p, st')) :
    changeFlowAssertsOk s.g p (findMinCapacity s.g p) := by
  have hsub : s.st ⊆ {s.g.source} := by rw [hP.src_eq]; exact hP.st_sub
  obtain ⟨⟨hchain, hvalid, hnd⟩, _⟩ := findPath_found s.g pf hsub hfp
  have hlen := hP.len_eq
  have hpaired : ∀ m ∈ p, Paired s.g m := by
    intro m hm
    exact dinvP_paired hP m (by have := (hvalid m hm).1; omega)
  constructor
  · have := bottleneck_pos (chain_ne_nil hchain) (fun i hi => (hvalid i hi).2)
    omega
  · exact changeFlowCapsOk_aux s.g (findMinCapacity s.g p) p hpaired
      (chain_ids_nodup p s.g.source hchain hnd)
      (path_pair_not_mem hP hchain hvalid hnd)
      (fun m hm => findMinCapacity_le s.g p m hm) p [] rfl

/-! ### Idempotence of addReverseEdges on its own output -/

theorem foldl_addReverseFor_id {g : Graph} :
    ∀ l : List Nat, (∀ m ∈ l, (g.edge m).reverseEdge ≠ none) →
      l.foldl addReverseFor g = g := by
  intro l
  induction l with
  | nil => intro _; rfl
  | cons m rest ih =>
      intro h
      have hm := h m (by simp)
      have hsome : ∃ j, (g.edge m).reverseEdge = some j := by
        cases hrev : (g.edge m).reverseEdge with
        | none => exact absurd hrev hm
        | some j => exact ⟨j, rfl⟩
      obtain ⟨j, hj⟩ := hsome
      rw [List.foldl_cons, addReverseFor_some hj]
      exact ih (fun k hk => h k (by simp [hk]))

theorem addReverseEdges_idem {sN tN : Char} {inp : List (Char × Char × Int)}
    {g0 : Graph} (h : readGraph sN tN inp = .ok g0) :
    addReverseEdges (addReverseEdges g0) = addReverseEdges g0 := by
  have hP := dinvP_init h
  have hlen : (addReverseEdges g0).edges.length = 2 * inp.length := hP.len_eq
  rw [addReverseEdges]
  refine foldl_addReverseFor_id _ ?_
  intro m hm
  obtain ⟨_, hmlen⟩ := mem_processOrder.mp hm
  rw [hlen] at hmlen
  show ((initState g0).g.edge m).reverseEdge ≠ none
  by_cases hN : m < inp.length
  · obtain ⟨h1, _, _, _, _, _, _, _, _⟩ := hP.pair m hN
    rw [h1]
    exact Option.noConfusion
  · obtain ⟨_, h1, _⟩ := hP.rev m (by omega) hmlen
    rw [h1]
    exact Option.noConfusion

/-! ### Degenerate configuration source = target, and marker insensitivity -/

theorem chain_last_target {g : Graph} {y : Char} :
    ∀ (q : List Nat) (x : Char), chainFrom g x y q = true →
      y ∈ edgeTargets g q := by
  intro q
  induction q with
  | nil => intro x h; simp [chainFrom] at h
  | cons i rest ih =>
      intro x h
      cases rest with
      | nil =>
          simp only [chainFrom, Bool.and_eq_true, decide_eq_true_eq] at h
          simp [edgeTargets, h.2]
      | cons j r =>
          have := ih (g.edge i).target (chainFrom_tail (by simp) h)
          simp only [edgeTargets, List.map_cons, List.mem_cons] at this ⊢
          tauto

theorem noAug_self {g : Graph} (hst : g.source = g.target) :
    ∀ q, ¬ isAugPath g q := by
  rintro q ⟨hchain, _, hnd⟩
  have hy := chain_last_target q g.source hchain
  rw [← hst] at hy
  exact (List.nodup_cons.mp hnd).1 hy

theorem findMaxFlow_self {inp : List (Char × Char × Int)} {sN : Char}
    {g0 : Graph} (h : readGraph sN sN inp = .ok g0) {lf : Nat}
    (hlf : 0 < lf) :
    ∃ s', findMaxFlow g0 (((vertsOf inp).length + 1) * (2 * inp.length + 2))
        lf = some s' ∧ s'.acc = 0 ∧ s'.g = addReverseEdges g0 := by
  have hP := dinvP_init h
  obtain ⟨k, rfl⟩ : ∃ k, lf = k + 1 := ⟨lf - 1, by omega⟩
  have hfuel : pathFuelFor (initState g0).g =
      ((vertsOf inp).length + 1) * (2 * inp.length + 2) := by
    rw [pathFuelFor, hP.verts_eq, hP.len_eq]
  have hv : ∀ i, i < (initState g0).g.edges.length →
      ((initState g0).g.edge i).target ∈ (initState g0).g.vertices := by
    intro i hi
    rw [hP.verts_eq]
    have := hP.len_eq
    exact (hP.ends i (by omega)).2
  have hfp : findPath (initState g0).g
      (((vertsOf inp).length + 1) * (2 * inp.length + 2))
      (initState g0).st ≠ none := by
    rw [← hfuel]
    exact findPath_isSome _ _ hv
  match hfp2 : findPath (initState g0).g
      (((vertsOf inp).length + 1) * (2 * inp.length + 2))
      (initState g0).st with
  | none => exact absurd hfp2 hfp
  | some (true, p, st') =>
      exfalso
      have hsub : (initState g0).st ⊆ {(initState g0).g.source} :=
        Finset.empty_subset _
      obtain ⟨haug, _⟩ := findPath_found _ _ hsub hfp2
      exact noAug_self (by rw [hP.src_eq, hP.tgt_eq]) p haug
  | some (false, p, st') =>
      refine ⟨{ initState g0 with st := st' }, ?_, rfl, rfl⟩
      show findMaxFlowAux _ (k + 1) (initState g0) = _
      simp only [findMaxFlowAux, driverStep, hfp2]

theorem findPath_st_irrelevant (g : Graph) (fuel : Nat) {st0 : Finset Char}
    (hsub : st0 ⊆ {g.source}) :
    findPath g fuel st0 = findPath g fuel ∅ := by
  unfold findPath
  rw [insert_source_of_sub hsub, insert_source_of_sub (Finset.empty_subset _)]

/-! ### Concrete instances used to exercise the claims -/

/-- Input of the spec's scenario: S→A capacity 3, A→T capacity 2. -/
def scenarioInp : List (Char × Char × Int) := [('S', 'A', 3), ('A', 'T', 2)]

/-- The graph `readGraph` builds from `scenarioInp`. -/
def scenarioG : Graph :=
  ⟨[⟨'S', 'A', 3, 0, false, none⟩, ⟨'A', 'T', 2, 0, false, none⟩],
    ['A', 'S', 'T'], 'S', 'T'⟩

/-- The scenario's driver state after the first augmentation. -/
def scenarioMid : DState :=
  (driverIter 50 1 (initState scenarioG)).getD (initState scenarioG)

/-- The scenario's final driver state. -/
def scenarioFinal : DState :=
  (findMaxFlow scenarioG 50 3).getD (initState scenarioG)

/-- An input with original edges in both directions between A and B. -/
def antiparInp : List (Char × Char × Int) := [('A', 'B', 1), ('B', 'A', 1)]

/-- The graph `readGraph` builds from `antiparInp`. -/
def antiparG : Graph :=
  ⟨[⟨'A', 'B', 1, 0, false, none⟩, ⟨'B', 'A', 1, 0, false, none⟩],
    ['A', 'B'], 'A', 'B'⟩

/-- An input whose overall source and target labels coincide. -/
def selfInp : List (Char × Char × Int) := [('S', 'A', 3)]

/-- The graph `readGraph` builds from `selfInp` with source = target = S. -/
def selfG : Graph := ⟨[⟨'S', 'A', 3, 0, false, none⟩], ['A', 'S'], 'S', 'S'⟩

/-- A single edge S→T: the direct-hit case of the path search. -/
def directInp : List (Char × Char × Int) := [('S', 'T', 1)]

/-- The graph `readGraph` builds from `directInp`. -/
def directG : Graph := ⟨[⟨'S', 'T', 1, 0, false, none⟩], ['S', 'T'], 'S', 'T'⟩

/-- The direct-hit graph's driver state after the first augmentation. -/
def directMid : DState :=
  (driverIter 20 1 (initState directG)).getD (initState directG)

/-! ### The claims -/

/-- C1: on every `readGraph`-accepted input with nonnegative capacities and
distinct source/target, whenever the driver loop of `findMaxFlow` terminates
it returns the maximum feasible flow value of the input graph (attained by
some valid assignment and exceeded by none), and it does terminate for some
fuel; in particular on the scenario S→A (cap 3), A→T (cap 2) it returns 2
with final flow 2 on S→A and 2 on A→T. -/
theorem C1_maxflow_correct {inp : List (Char × Char × Int)} {sN tN : Char}
    {g0 : Graph} (h : readGraph sN tN inp = .ok g0)
    (hcaps : ∀ i, i < inp.length → 0 ≤ inpCap inp i) (hsntn : sN ≠ tN) :
    (∀ pf lf s', findMaxFlow g0 pf lf = some s' →
        IsMaxFlowValue inp sN tN s'.acc) ∧
    (∃ pf lf s', findMaxFlow g0 pf lf = some s') ∧
    (readGraph 'S' 'T' scenarioInp = .ok scenarioG ∧
      findMaxFlow scenarioG 50 3 = some scenarioFinal ∧
      scenarioFinal.acc = 2 ∧ flowOf scenarioFinal.g 0 = 2 ∧
      flowOf scenarioFinal.g 1 = 2) := by
  obtain ⟨_, _, _, _, hsNv, _⟩ := readGraph_ok h
  refine ⟨?_, ?_, rfl, rfl, by decide, by decide, by decide⟩
  · intro pf lf s' hfm
    have hspec := findMaxFlowAux_spec lf (initState g0) (dinvP_init h) hfm
    exact maxflow_optimal hsntn hsNv hspec.1
      (hspec.2.1 (dinvF_init h hcaps) hsntn) hspec.2.2
  · refine ⟨((vertsOf inp).length + 1) * (2 * inp.length + 2),
      (srcCapSum (initState g0).g).toNat + 1, ?_⟩
    have hne := findMaxFlowAux_terminates hsntn
      ((srcCapSum (initState g0).g).toNat + 1) (initState g0)
      (dinvP_init h) (dinvF_init h hcaps) rfl (by omega)
    exact Option.ne_none_iff_exists'.mp hne

/-- Witness for C1 at the scenario input: 2 is the maximum flow value of the
graph S→A (cap 3), A→T (cap 2). -/
theorem C1_w : IsMaxFlowValue scenarioInp 'S' 'T' 2 := by
  have hC := C1_maxflow_correct
    (rfl : readGraph 'S' 'T' scenarioInp = .ok scenarioG)
    (by decide) (by decide)
  have hval := hC.1 50 3 scenarioFinal hC.2.2.2.1
  rw [hC.2.2.2.2.1] at hval
  exact hval

/-- C2: at every point of the driver loop (after residual construction and
before and after each augmentation), every original edge and its reverse
partner satisfy flow = −(reverse flow) and capacity + reverse capacity =
original input capacity, and the two edges reference each other. -/
theorem C2_pair_invariants {inp : List (Char × Char × Int)} {sN tN : Char}
    {g0 : Graph} {pf k : Nat} {s : DState} (h : readGraph sN tN inp = .ok g0)
    (hit : driverIter pf k (initState g0) = some s) :
    ∀ i, i < inp.length →
      (s.g.edge (pairIdx s.g i)).flow = -(s.g.edge i).flow ∧
      (s.g.edge i).capacity + (s.g.edge (pairIdx s.g i)).capacity =
        inpCap inp i ∧
      (s.g.edge i).reverseEdge = some (pairIdx s.g i) ∧
      (s.g.edge (pairIdx s.g i)).reverseEdge = some i := by
  intro i hi
  have hP := (driverIter_inv k (initState g0) (dinvP_init h) hit).1
  obtain ⟨p1, _, _, p4, _, _, _, p8, p9⟩ := hP.pair i hi
  exact ⟨p8, p9, p1, p4⟩

/-- Witness for C2: the pair equalities after the scenario's first
augmentation, on the edge S→A and its reverse. -/
theorem C2_w :
    (scenarioMid.g.edge (pairIdx scenarioMid.g 0)).flow =
      -(scenarioMid.g.edge 0).flow ∧
    (scenarioMid.g.edge 0).capacity +
        (scenarioMid.g.edge (pairIdx scenarioMid.g 0)).capacity =
      inpCap scenarioInp 0 := by
  have hx := C2_pair_invariants
    (rfl : readGraph 'S' 'T' scenarioInp = .ok scenarioG)
    (rfl : driverIter 50 1 (initState scenarioG) = some scenarioMid)
    0 (by decide)
  exact ⟨hx.1, hx.2.1⟩

/-- C3: from any marker state the driver can reach, a found `findPath`
result is an augmenting path — a directed walk source→target whose edges all
have positive residual capacity and which repeats no vertex — and a
not-found result means no such augmenting path exists in the current
residual graph. -/
theorem C3_findPath_sound_complete {g : Graph} {fuel : Nat}
    {st0 : Finset Char} (hsub : st0 ⊆ {g.source}) :
    (∀ p st', findPath g fuel st0 = some (true, p, st') → isAugPath g p) ∧
    (∀ p st', findPath g fuel st0 = some (false, p, st') →
      ∀ q, ¬ isAugPath g q) := by
  constructor
  · intro p st' hfp
    exact (findPath_found g fuel hsub hfp).1
  · intro p st' hfp
    exact (findPath_not_found g fuel hsub hfp).1

/-- Witness for C3: the path [S→A, A→T] found on the scenario's residual
graph is an augmenting path. -/
theorem C3_w : isAugPath (initState scenarioG).g [0, 1] :=
  (C3_findPath_sound_complete (Finset.empty_subset _)).1 [0, 1] ∅
    (by decide :
      findPath (initState scenarioG).g 50 ∅ = some (true, [0, 1], ∅))

/-- C4: for every path the driver finds and its bottleneck amount, both
assertions inside `changeFlow` (the amount is nonnegative; no edge's
capacity drops below the amount at its update step) hold, so the assert is
unreachable in the driver loop. -/
theorem C4_asserts_unreachable {inp : List (Char × Char × Int)}
    {sN tN : Char} {g0 : Graph} {pf k : Nat} {s : DState} {p : List Nat}
    {st' : Finset Char} (h : readGraph sN tN inp = .ok g0)
    (hit : driverIter pf k (initState g0) = some s)
    (hfp : findPath s.g pf s.st = some (true, p, st')) :
    changeFlowAssertsOk s.g p (findMinCapacity s.g p) :=
  driver_asserts_hold (driverIter_inv k (initState g0) (dinvP_init h) hit).1
    hfp

/-- Witness for C4: the asserts hold for the scenario's first augmenting
path and its bottleneck. -/
theorem C4_w : changeFlowAssertsOk (initState scenarioG).g [0, 1]
    (findMinCapacity (initState scenarioG).g [0, 1]) :=
  C4_asserts_unreachable
    (rfl : readGraph 'S' 'T' scenarioInp = .ok scenarioG)
    (rfl : driverIter 50 0 (initState scenarioG) = some (initState scenarioG))
    (by decide : findPath (initState scenarioG).g 50 (initState scenarioG).st
      = some (true, [0, 1], ∅))

/-- C5: at every point of the driver loop, every original input edge (the
edges that existed before residual construction, hence the edges that have
an original capacity) carries a flow between 0 and its original capacity. -/
theorem C5_flow_bounds {inp : List (Char × Char × Int)} {sN tN : Char}
    {g0 : Graph} {pf k : Nat} {s : DState} (h : readGraph sN tN inp = .ok g0)
    (hcaps : ∀ i, i < inp.length → 0 ≤ inpCap inp i) (hsntn : sN ≠ tN)
    (hit : driverIter pf k (initState g0) = some s) :
    ∀ i, i < inp.length →
      0 ≤ flowOf s.g i ∧ flowOf s.g i ≤ inpCap inp i := by
  intro i hi
  obtain ⟨hP, hFi⟩ := driverIter_inv k (initState g0) (dinvP_init h) hit
  have hF := hFi (dinvF_init h hcaps) hsntn
  obtain ⟨_, _, _, ho4⟩ := hP.orig i hi
  obtain ⟨_, _, h3, _, _, _, _, _, h9⟩ := hP.pair i hi
  have hlen := hP.len_eq
  have hc1 := hF.caps i (by omega)
  have hc2 := hF.caps (pairIdx s.g i) h3
  rw [flowOf]
  omega

/-- Witness for C5: the flow bounds on edge S→A after the scenario's first
augmentation. -/
theorem C5_w : 0 ≤ flowOf scenarioMid.g 0 ∧
    flowOf scenarioMid.g 0 ≤ inpCap scenarioInp 0 :=
  C5_flow_bounds (rfl : readGraph 'S' 'T' scenarioInp = .ok scenarioG)
    (by decide) (by decide)
    (rfl : driverIter 50 1 (initState scenarioG) = some scenarioMid)
    0 (by decide)

/-- C6: after `findMaxFlow` completes, flow is conserved at every vertex
other than the source and the target: the flow into it equals the flow out
of it, both over all edges of the final residual graph and over the
original input edges. -/
theorem C6_conservation {inp : List (Char × Char × Int)} {sN tN : Char}
    {g0 : Graph} {pf lf : Nat} {s : DState} (h : readGraph sN tN inp = .ok g0)
    (hcaps : ∀ i, i < inp.length → 0 ≤ inpCap inp i) (hsntn : sN ≠ tN)
    (hfm : findMaxFlow g0 pf lf = some s) :
    ∀ v, v ≠ sN → v ≠ tN →
      inFlowAll s.g v = outFlowAll s.g v ∧
      inSum inp (flowOf s.g) v = outSum inp (flowOf s.g) v := by
  intro v hv1 hv2
  have hspec := findMaxFlowAux_spec lf (initState g0) (dinvP_init h) hfm
  have hP := hspec.1
  have hF := hspec.2.1 (dinvF_init h hcaps) hsntn
  have hc := hF.cons v hv1 hv2
  refine ⟨?_, hc⟩
  rw [inFlowAll_eq hP v, outFlowAll_eq hP v, hc]

/-- Witness for C6: conservation at the internal vertex A of the scenario's
final state. -/
theorem C6_w : inFlowAll scenarioFinal.g 'A' = outFlowAll scenarioFinal.g 'A' :=
  (C6_conservation (rfl : readGraph 'S' 'T' scenarioInp = .ok scenarioG)
    (by decide) (by decide)
    (rfl : findMaxFlow scenarioG 50 3 = some scenarioFinal)
    'A' (by decide) (by decide)).1

/-- C7 (amended): `addReverseEdges` skips exactly the edges whose reverse
pointer is already set — never an unlinked original edge, even one whose
reverse direction is itself an original input edge.  On a
`readGraph`-constructed graph it therefore gives every original edge a
fresh companion (target→source, capacity 0, flow 0, marked reverse,
mutually linked), doubling the edge count, and running it a second time
leaves the graph unchanged. -/
theorem C7_reverse_pairs_amended {sN tN : Char}
    {inp : List (Char × Char × Int)} {g0 : Graph}
    (h : readGraph sN tN inp = .ok g0) :
    (addReverseEdges g0).edges.length = 2 * inp.length ∧
    (∀ i, i < inp.length →
      ((addReverseEdges g0).edge i).reverseEdge =
        some (pairIdx (addReverseEdges g0) i) ∧
      inp.length ≤ pairIdx (addReverseEdges g0) i ∧
      ((addReverseEdges g0).edge
        (pairIdx (addReverseEdges g0) i)).reverseEdge = some i ∧
      ((addReverseEdges g0).edge (pairIdx (addReverseEdges g0) i)).source =
        inpTgt inp i ∧
      ((addReverseEdges g0).edge (pairIdx (addReverseEdges g0) i)).target =
        inpSrc inp i ∧
      ((addReverseEdges g0).edge
        (pairIdx (addReverseEdges g0) i)).isReverseEdge = true ∧
      ((addReverseEdges g0).edge (pairIdx (addReverseEdges g0) i)).flow = 0 ∧
      ((addReverseEdges g0).edge
        (pairIdx (addReverseEdges g0) i)).capacity = 0) ∧
    addReverseEdges (addReverseEdges g0) = addReverseEdges g0 := by
  obtain ⟨hBI, hlen, hlinked⟩ := addReverseEdges_spec h
  refine ⟨hlen, ?_, addReverseEdges_idem h⟩
  intro i hi
  cases hBI.origrev i hi with
  | inl hnone => exact absurd hnone (hlinked i hi)
  | inr hfacts =>
      obtain ⟨l1, l2, l3, l4⟩ := hfacts
      obtain ⟨r1, r2, r3, r4, r5, r6, r7, r8⟩ :=
        hBI.rev (pairIdx (addReverseEdges g0) i) l2 l3
      have hinv : pairIdx (addReverseEdges g0)
          (pairIdx (addReverseEdges g0) i) = i := by
        rw [pairIdx, l4]
        rfl
      rw [hinv] at r4 r5
      exact ⟨l1, l2, l4, r4, r5, r6, r7, r8⟩

/-- Witness for C7: a second pass of `addReverseEdges` over the residual
graph of the antiparallel input is the identity. -/
theorem C7_w : addReverseEdges (addReverseEdges antiparG) =
    addReverseEdges antiparG :=
  (C7_reverse_pairs_amended
    (rfl : readGraph 'A' 'B' antiparInp = .ok antiparG)).2.2

/-- Counterexample to C7 as stated: with original edges A→B and B→A the
spec predicts both are skipped (each acting as the other's reverse), leaving
2 edges; the code links neither to the other and appends a fresh companion
for each, giving 4 edges paired 0↔2 and 1↔3. -/
theorem C7_cex : (addReverseEdges antiparG).edges.length = 4 ∧
    ((addReverseEdges antiparG).edge 0).reverseEdge = some 2 ∧
    ((addReverseEdges antiparG).edge 1).reverseEdge = some 3 := by decide

/-- C8 (amended): `readGraph` performs no source ≠ target check — it accepts
a configuration whose source and target labels coincide whenever the label
occurs in some edge — and on such a graph the solve proceeds and returns
total flow 0 with the residual graph untouched, because the very first path
search fails (no simple augmenting path can both start and end at the same
vertex). -/
theorem C8_self_target_amended {inp : List (Char × Char × Int)} {sN : Char}
    {g0 : Graph} {lf : Nat} (h : readGraph sN sN inp = .ok g0)
    (hlf : 0 < lf) :
    (readGraph sN sN inp).isOk = true ∧
    ∃ s', findMaxFlow g0
        (((vertsOf inp).length + 1) * (2 * inp.length + 2)) lf = some s' ∧
      s'.acc = 0 ∧ s'.g = addReverseEdges g0 := by
  refine ⟨?_, findMaxFlow_self h hlf⟩
  rw [h]
  rfl

/-- Witness for C8: solving the accepted source-=-target configuration over
`selfInp` returns total flow 0. -/
theorem C8_w : ((findMaxFlow selfG
    (((vertsOf selfInp).length + 1) * (2 * selfInp.length + 2)) 5).getD
      (initState selfG)).acc = 0 := by
  have hg : readGraph 'S' 'S' selfInp = Except.ok selfG := rfl
  obtain ⟨-, s', h1, h2, -⟩ :=
    C8_self_target_amended hg (by decide : (0 : Nat) < 5)
  rw [h1]
  exact h2

/-- Counterexample to C8 as stated: graph construction accepts the
configuration source = target ('S' = 'S') instead of failing with a
configuration error. -/
theorem C8_cex : (readGraph 'S' 'S' selfInp).isOk = true := by decide

/-- C9: the driver loop terminates on every `readGraph`-accepted input with
nonnegative capacities and distinct source/target: each found path has a
positive integer bottleneck that permanently leaves the residual capacity
out of the source, so with the stated path fuel and one loop iteration more
than that initial capacity, `findMaxFlow` returns a result. -/
theorem C9_terminates {inp : List (Char × Char × Int)} {sN tN : Char}
    {g0 : Graph} (h : readGraph sN tN inp = .ok g0)
    (hcaps : ∀ i, i < inp.length → 0 ≤ inpCap inp i) (hsntn : sN ≠ tN) :
    findMaxFlow g0 (((vertsOf inp).length + 1) * (2 * inp.length + 2))
      ((srcCapSum (initState g0).g).toNat + 1) ≠ none :=
  findMaxFlowAux_terminates hsntn ((srcCapSum (initState g0).g).toNat + 1)
    (initState g0) (dinvP_init h) (dinvF_init h hcaps) rfl (by omega)

/-- Witness for C9: the solve of the scenario graph terminates within its
computed fuel. -/
theorem C9_w : (findMaxFlow scenarioG
    (((vertsOf scenarioInp).length + 1) * (2 * scenarioInp.length + 2))
    ((srcCapSum (initState scenarioG).g).toNat + 1)).isSome = true :=
  Option.isSome_iff_ne_none.mpr
    (C9_terminates (rfl : readGraph 'S' 'T' scenarioInp = .ok scenarioG)
      (by decide) (by decide))

/-- C10 (amended): the vertex markers are NOT always all cleared when a
top-level `findPath` returns (on a direct hit the source's marker stays
set); what holds instead is that at every reachable driver state the marker
set is contained in the singleton of the source, and the next search
re-marks the source first, so its outcome is the same as from an all-clear
marker state — results depend only on the current capacities. -/
theorem C10_markers_amended {inp : List (Char × Char × Int)} {sN tN : Char}
    {g0 : Graph} {pf k : Nat} {s : DState}
    (h : readGraph sN tN inp = .ok g0)
    (hit : driverIter pf k (initState g0) = some s) :
    s.st ⊆ {s.g.source} ∧
    ∀ fuel, findPath s.g fuel s.st = findPath s.g fuel ∅ := by
  have hP := (driverIter_inv k (initState g0) (dinvP_init h) hit).1
  have hsub : s.st ⊆ {s.g.source} := by
    rw [hP.src_eq]
    exact hP.st_sub
  exact ⟨hsub, fun fuel => findPath_st_irrelevant s.g fuel hsub⟩

/-- Witness for C10: after the direct-hit augmentation (which leaves the
source marker set), the next search result equals the one from the clean
marker state. -/
theorem C10_w : findPath directMid.g 20 directMid.st =
    findPath directMid.g 20 ∅ :=
  (C10_markers_amended (rfl : readGraph 'S' 'T' directInp = .ok directG)
    (rfl : driverIter 20 1 (initState directG) = some directMid)).2 20

/-- Counterexample to C10 as stated: on the single-edge graph S→T the
top-level `findPath` returns found with the source's marker still set
(the marker set is {S}, not empty). -/
theorem C10_cex : findPath (initState directG).g 20 ∅ =
    some (true, [0], {'S'}) := by decide

end MaxFlow
